import Mathlib

/-!
Shallow embedding of the MPQUIC-FEC core (C++ sources) and verification of
the spec claims.  Machine integers are modelled as `Nat` with explicit
`% 2^w` where wrap-around matters; `double` link metrics are modelled as `ℚ`
(exact arithmetic), except for the multiplicative-weights update whose
`exp` forces `ℝ`.  Fallible C++ code (exceptions) is modelled with
`Option`/`Except`.
-/

namespace Spec2Proof

/-! ## Frame codec — `FECFrameHeader` / `FECFrame`
    (src/src/core/fec/packet_hook.cpp, second part = fec_frame.cpp,
     and include/fec_frame.hpp) -/

/-- Big-endian byte encoding of `v` on `n` bytes: the source writes
    `data[offset++] = (v >> (i*8)) & 0xFF` for `i = n-1 .. 0`. -/
def beBytes : ℕ → ℕ → List ℕ
  | 0, _ => []
  | n + 1, v => beBytes n (v / 256) ++ [v % 256]

/-- Big-endian accumulation, the source's `x = (x << 8) | data[offset++]`
    (the bytes are `uint8_t`, so `|` coincides with `+`). -/
def parseBE (bytes : List ℕ) : ℕ :=
  bytes.foldl (fun acc b => acc * 256 + b) 0

/-- `FECFrameHeader` (include/fec_frame.hpp).  `frame_type` is the raw byte
    (the enum is `uint8_t`-backed and deserialization casts the byte
    unchecked). -/
structure FECFrameHeader where
  frame_type : ℕ
  group_id : ℕ
  block_index : ℕ
  total_blocks : ℕ
  payload_length : ℕ
  deriving DecidableEq, Repr

/-- `FECFrameHeader::HEADER_SIZE = 25`. -/
def HEADER_SIZE : ℕ := 25

/-- `FECFrameHeader::serialize`: a 25-byte vector, zero-initialised; the
    code writes bytes 0..20 (type, group_id, block_index, total_blocks,
    payload_length) and leaves the 4 reserved bytes 21..24 at zero. -/
def FECFrameHeader.serialize (h : FECFrameHeader) : List ℕ :=
  [h.frame_type % 256] ++ beBytes 8 h.group_id ++ beBytes 4 h.block_index ++
    beBytes 4 h.total_blocks ++ beBytes 4 h.payload_length ++ [0, 0, 0, 0]

/-- `FECFrame` (include/fec_frame.hpp). -/
structure FECFrame where
  header : FECFrameHeader
  payload : List ℕ
  deriving DecidableEq, Repr

/-- `FECFrame::serialize`: header bytes followed by the payload. -/
def FECFrame.serialize (f : FECFrame) : List ℕ :=
  f.header.serialize ++ f.payload

/-- The two `std::invalid_argument` throws of the deserializers:
    "Insufficient data for FEC header" and
    "Insufficient data for FEC frame payload". -/
inductive ParseErr where
  | ShortHeader
  | ShortPayload
  deriving DecidableEq, Repr

/-- `FECFrameHeader::deserialize`: throws if fewer than 25 bytes, otherwise
    reads the five fields; the 4 reserved bytes are ignored and the type
    byte is stored with a bare `static_cast` (no validation). -/
def FECFrameHeader.deserialize (bytes : List ℕ) : Except ParseErr FECFrameHeader :=
  if bytes.length < HEADER_SIZE then .error .ShortHeader
  else .ok
    { frame_type := bytes.getD 0 0
      group_id := parseBE ((bytes.drop 1).take 8)
      block_index := parseBE ((bytes.drop 9).take 4)
      total_blocks := parseBE ((bytes.drop 13).take 4)
      payload_length := parseBE ((bytes.drop 17).take 4) }

/-- `FECFrame::deserialize`: parse the header, then throw if fewer than
    `25 + payload_length` bytes, else copy `payload_length` bytes. -/
def FECFrame.deserialize (bytes : List ℕ) : Except ParseErr FECFrame :=
  match FECFrameHeader.deserialize bytes with
  | .error e => .error e
  | .ok h =>
      if bytes.length < HEADER_SIZE + h.payload_length then .error .ShortPayload
      else .ok { header := h, payload := (bytes.drop HEADER_SIZE).take h.payload_length }

/-! ## Block codec — `FECEncoder` / `FECDecoder` (src/src/core/fec/fec_encoder.cpp)

The "simplified Reed-Solomon" of the source: parity byte `i` of parity
block `p` is the XOR over data blocks `d` of the `uint8_t` truncation of
`data[d][i] * (p + d + 1)` (`value` is a `uint8_t`, so each `^=` keeps only
the low 8 bits).  Bytes are `ℕ < 256`; `throw` is `none`.
The constructor's `k == 0 || m == 0` throw is not modelled: all claims use
positive parameters. -/

def FECEncoder.encode (k m block_size : ℕ) (data_blocks : List (List ℕ)) :
    Option (List (List ℕ)) :=
  if data_blocks.length ≠ k then none
  else if data_blocks.any (fun b => b.length ≠ block_size) then none
  else some ((List.range m).map (fun p =>
    (List.range block_size).map (fun i =>
      (List.range k).foldl
        (fun value d => value ^^^ (((data_blocks.getD d []).getD i 0 * (p + d + 1)) % 256))
        0)))

/-- `FECDecoder::decode`: requires at least `k` blocks and matching id
    count; copies the received blocks whose id is `< k` (in order, stopping
    at `k`), then pads with zero blocks up to `k`.  Repair blocks are never
    used to reconstruct anything. -/
def FECDecoder.decode (k block_size : ℕ) (received_blocks : List (List ℕ))
    (block_ids : List ℕ) : Option (List (List ℕ)) :=
  if received_blocks.length < k then none
  else if received_blocks.length ≠ block_ids.length then none
  else
    let recovered := (block_ids.zip received_blocks).foldl
      (fun acc p => if p.1 < k ∧ acc.length < k then acc ++ [p.2] else acc) []
    some (recovered ++ List.replicate (k - recovered.length) (List.replicate block_size 0))

/-! ## Receive hook — `PacketReceiveHook` (src/src/core/fec/packet_hook.cpp)

`received_groups_` and `received_frames` are `std::map`s; they are modelled
as association lists kept sorted by key so that iteration order (ascending
key) is preserved. -/

/-- Ordered insert-or-assign, the semantics of `std::map::operator[]=`. -/
def mapInsert {α : Type} (key : ℕ) (v : α) : List (ℕ × α) → List (ℕ × α)
  | [] => [(key, v)]
  | (k', v') :: rest =>
    if key < k' then (key, v) :: (k', v') :: rest
    else if key = k' then (key, v) :: rest
    else (k', v') :: mapInsert key v rest

/-- First-match lookup (`std::map::find`). -/
def mapFind {α : Type} (key : ℕ) (l : List (ℕ × α)) : Option α :=
  (l.find? (fun e => e.1 = key)).map (·.2)

/-- `PacketReceiveHook::ReceivedGroup`; `info` is inlined (its
    default-constructed `FECGroupInfo` is all zeros). -/
structure ReceivedGroup where
  group_id : ℕ
  k : ℕ
  m : ℕ
  block_size : ℕ
  received_frames : List (ℕ × FECFrame)
  is_complete : Bool
  deriving DecidableEq, Repr

instance : Inhabited ReceivedGroup := ⟨⟨0, 0, 0, 0, [], false⟩⟩

/-- `PacketReceiveHook::try_decode_group` on a single group: if already
    complete, nothing; else decode over the frames in ascending block-index
    order; on success mark complete, on decoder throw return `[]`. -/
def PacketReceiveHook.try_decode_group (g : ReceivedGroup) :
    ReceivedGroup × List (List ℕ) :=
  if g.is_complete then (g, [])
  else
    match FECDecoder.decode g.k g.block_size (g.received_frames.map (·.2.payload))
        (g.received_frames.map (·.1)) with
    | some decoded => ({ g with is_complete := true }, decoded)
    | none => (g, [])

/-- `PacketReceiveHook::on_frame_received` restricted to one group's entry:
    store the frame at its block index; on the first frame (sentinel
    `info.group_id == 0`) infer `k = total_blocks * 2 / 3` (integer
    division, assuming a fixed 2:1 source:repair ratio),
    `m = total_blocks - k`, `block_size = payload size`; attempt decode
    once the number of distinct indices reaches the inferred `k`. -/
def PacketReceiveHook.on_frame_received_group (g : ReceivedGroup) (frame : FECFrame) :
    ReceivedGroup × List (List ℕ) :=
  let g := { g with
    received_frames := mapInsert frame.header.block_index frame g.received_frames }
  let g := if g.group_id = 0 then
      { g with
        group_id := frame.header.group_id
        k := frame.header.total_blocks * 2 / 3
        m := frame.header.total_blocks - frame.header.total_blocks * 2 / 3
        block_size := frame.payload.length }
    else g
  if g.received_frames.length ≥ g.k then PacketReceiveHook.try_decode_group g
  else (g, [])

/-- The full hook over the `received_groups_` map: fetch-or-create the
    group (`received_groups_[group_id]` default-constructs), run the
    per-group step, store the group back. -/
def PacketReceiveHook.on_frame_received (groups : List (ℕ × ReceivedGroup))
    (frame : FECFrame) : List (ℕ × ReceivedGroup) × List (List ℕ) :=
  (mapInsert frame.header.group_id
    (PacketReceiveHook.on_frame_received_group
      ((mapFind frame.header.group_id groups).getD default) frame).1 groups,
   (PacketReceiveHook.on_frame_received_group
      ((mapFind frame.header.group_id groups).getD default) frame).2)

/-! ## Path scheduler — `PathScheduler` (src/unnamed/part_003, enhanced copy)

Link metrics are `double`s in the source, modelled as `ℚ`.  `paths_` is a
`std::map<uint32_t, PathState>`; it is modelled as a list in ascending
`path_id` order (the claims' runs only build such lists). -/

structure PathState where
  path_id : ℕ
  rtt_ms : ℚ
  loss_rate : ℚ
  bandwidth_mbps : ℚ
  jitter_ms : ℚ
  bytes_sent : ℕ
  bytes_acked : ℕ
  cwnd : ℕ
  deriving DecidableEq, Repr

/-- The source-packet score of `PathScheduler::select_source_path`:
    `-0.4*rtt - 0.5*loss*1000 + 0.1*bw`. -/
def sourceScore (s : PathState) : ℚ :=
  -(0.4) * s.rtt_ms - 0.5 * s.loss_rate * 1000 + 0.1 * s.bandwidth_mbps

/-- `PathScheduler::select_source_path`: throws (`none`) on an empty path
    map; otherwise argmax of `sourceScore` over ALL paths (no availability
    filter), initial best = first key with score `-1e9`, strict `>` keeps
    the lowest id on ties. The `packet_size` argument is unused. -/
def PathScheduler.select_source_path (paths : List PathState) : Option ℕ :=
  match paths with
  | [] => none
  | first :: _ =>
    some (paths.foldl
      (fun best s => if sourceScore s > best.2 then (s.path_id, sourceScore s) else best)
      (first.path_id, -(10 ^ 9 : ℚ))).1

/-- `PathScheduler::is_path_available`: the path exists and
    `loss_rate < 0.5 && bandwidth_mbps > 0.1`. -/
def PathScheduler.is_path_available (paths : List PathState) (path_id : ℕ) : Bool :=
  match paths.find? (fun s => s.path_id = path_id) with
  | none => false
  | some s => decide (s.loss_rate < 0.5 ∧ s.bandwidth_mbps > 0.1)

/-- Shared shape of the two correlation stores; keys are path-id pairs. -/
abbrev CorrStore := List ((ℕ × ℕ) × ℚ)

/-- Lookup in a correlation store (`std::map::find`, first match). -/
def corrFind (M : CorrStore) (key : ℕ × ℕ) : Option ℚ :=
  (M.find? (fun e => e.1 = key)).map (·.2)

/-- `LossCorrelationMatrix::update_correlation` (src/unnamed/part_003, OCO
    part): clamp `rho` to `[-1, 1]`, store under `(min, max)`.  Cons on the
    front models `std::map` overwrite together with first-match lookup. -/
def LossCorrelationMatrix.update_correlation (M : CorrStore) (path_i path_j : ℕ)
    (rho : ℚ) : CorrStore :=
  ((min path_i path_j, max path_i path_j), max (-1) (min 1 rho)) :: M

/-- `LossCorrelationMatrix::get_correlation`: `1` on the diagonal, stored
    value under the canonical key, else `0`. -/
def LossCorrelationMatrix.get_correlation (M : CorrStore) (path_i path_j : ℕ) : ℚ :=
  if path_i = path_j then 1
  else (corrFind M (min path_i path_j, max path_i path_j)).getD 0

/-- `PathScheduler::update_path_correlation`: stores `correlation` in the
    scheduler's own `path_correlations_` WITHOUT clamping (the forwarding
    to the attached OCO controller is the clamped store above). -/
def PathScheduler.update_path_correlation (M : CorrStore) (path_i path_j : ℕ)
    (correlation : ℚ) : CorrStore :=
  ((min path_i path_j, max path_i path_j), correlation) :: M

/-- `PathScheduler::get_path_correlation`: same shape as the matrix getter,
    over the scheduler's own store. -/
def PathScheduler.get_path_correlation (M : CorrStore) (path_i path_j : ℕ) : ℚ :=
  if path_i = path_j then 1
  else (corrFind M (min path_i path_j, max path_i path_j)).getD 0

/-- `PathScheduler::find_least_correlated_path`: argmin of `|ρ|` over the
    other paths, initial best = `path_id` with `min_correlation = 2`. -/
def PathScheduler.find_least_correlated_path (paths : List PathState) (M : CorrStore)
    (path_id : ℕ) : ℕ :=
  if paths.length ≤ 1 then path_id
  else (paths.foldl
    (fun best s =>
      if s.path_id = path_id then best
      else if |PathScheduler.get_path_correlation M path_id s.path_id| < best.2 then
        (s.path_id, |PathScheduler.get_path_correlation M path_id s.path_id|)
      else best)
    (path_id, 2)).1

/-- `PathScheduler::select_repair_path`: throws (`none`) on empty; the only
    path if there is one; otherwise the least-correlated path, replaced by
    the first path different from the source if the search came back with
    the source itself. -/
def PathScheduler.select_repair_path (paths : List PathState) (M : CorrStore)
    (source_path_id : ℕ) : Option ℕ :=
  match paths with
  | [] => none
  | first :: _ =>
    if paths.length = 1 then some first.path_id
    else
      let repair := PathScheduler.find_least_correlated_path paths M source_path_id
      if repair = source_path_id ∧ paths.length > 1 then
        some ((((paths.find? (fun s => s.path_id ≠ source_path_id)).map
          (·.path_id)).getD repair))
      else some repair

/-! ## Redundancy controller — `OCORedundancyController`
    (src/unnamed/part_003, OCO part) -/

/-- `OCORedundancyController::estimate_required_redundancy`:
    `clamp(loss*2 * (1 + rtt/200 * 0.3), min_rate, max_rate)`. -/
def OCORedundancyController.estimate_required_redundancy
    (min_rate max_rate loss_rate rtt_ms : ℚ) : ℚ :=
  let base_redundancy := loss_rate * 2
  let rtt_factor := 1 + rtt_ms / 200 * 0.3
  let required := base_redundancy * rtt_factor
  max min_rate (min max_rate required)

/-- `OCORedundancyController::redundancy_rate_to_params`: baseline `k = 8`,
    `k = 10` below rate `0.2`, `k = 4` above `0.6`; `m = ⌈k*rate⌉` clamped
    to `[1, k]`.  (The source's first `m = ceil(8*rate)` is a dead store,
    recomputed after `k` is chosen.)  `Int.toNat` models the
    `static_cast<uint32_t>` on the nonnegative rates the controller
    produces. -/
def OCORedundancyController.redundancy_rate_to_params (rate : ℚ) : ℕ × ℕ :=
  let k : ℕ := if rate < 0.2 then 10 else if rate > 0.6 then 4 else 8
  let m : ℕ := (Int.ceil ((k : ℚ) * rate)).toNat
  (k, max 1 (min m k))

/-! ## Master controller — `MPQUICFECController`
    (src/src/core/mpquic_fec_controller.cpp) together with the group
    manager / send hook it drives (src/src/core/fec/packet_hook.cpp).

Timestamps (`send_time_us`, group creation times) are wall-clock reads
with no influence on any claim and are omitted.  `next_packet_numbers_`
is a `std::map<uint32_t, uint64_t>` accessed with `operator[]`
(default `0`; `add_path` sets the entry to `1`), modelled as a total
function. -/

structure SendPacketMeta where
  packet_number : ℕ
  path_id : ℕ
  is_repair : Bool
  frame : FECFrame
  deriving DecidableEq, Repr

structure CtrlState where
  k : ℕ
  m : ℕ
  block_size : ℕ
  fec_enabled : Bool
  current_group_id : ℕ          -- id of the open group (`next_group_id_` semantics)
  current : List (List ℕ)       -- payloads accumulated in the open group
  next_packet_numbers : ℕ → ℕ
  paths : List PathState        -- the scheduler's path map
  corr : CorrStore              -- the scheduler's `path_correlations_`

/-- `MPQUICFECController::get_next_packet_number`: post-increment of the
    per-path counter (returns the old value). -/
def MPQUICFECController.get_next_packet_number (st : CtrlState) (path_id : ℕ) :
    ℕ × CtrlState :=
  (st.next_packet_numbers path_id,
   { st with next_packet_numbers :=
       (Function.update st.next_packet_numbers path_id
         (st.next_packet_numbers path_id + 1)) })

/-- `PacketSendHook::wrap_source_frame`. -/
def PacketSendHook.wrap_source_frame (group_id block_idx total_blocks : ℕ)
    (data : List ℕ) : FECFrame :=
  { header := { frame_type := 0xF0, group_id := group_id, block_index := block_idx,
                total_blocks := total_blocks, payload_length := data.length }
    payload := data }

/-- The repair frames built by `FECGroupManager::perform_encoding`:
    block indices `k + i`, `total_blocks = k + m`. -/
def repairFrames (group_id k m : ℕ) (parity : List (List ℕ)) : List FECFrame :=
  (List.range parity.length).map (fun i =>
    { header := { frame_type := 0xF1, group_id := group_id, block_index := k + i,
                  total_blocks := k + m, payload_length := (parity.getD i []).length }
      payload := parity.getD i [] })

/-- `MPQUICFECController::assign_packets_to_paths`' per-frame loop: source
    frames go on `sp`, everything else on `rp`; each frame takes the next
    packet number of its path; frames keep their order. -/
def MPQUICFECController.assign_frames (sp rp : ℕ) :
    List FECFrame → CtrlState → CtrlState × List SendPacketMeta
  | [], st => (st, [])
  | fr :: rest, st =>
    let pid := if fr.header.frame_type = 0xF0 then sp else rp
    let pn := st.next_packet_numbers pid
    let st1 : CtrlState :=
      { st with next_packet_numbers :=
          Function.update st.next_packet_numbers pid (pn + 1) }
    ((MPQUICFECController.assign_frames sp rp rest st1).1,
     { packet_number := pn, path_id := pid,
       is_repair := !(fr.header.frame_type = 0xF0), frame := fr }
       :: (MPQUICFECController.assign_frames sp rp rest st1).2)

/-- `MPQUICFECController::send_stream_data`.  With FEC disabled, one plain
    source frame on the origin path.  With FEC on: first a "fake" packet
    number is drawn (and thereby consumed) on the origin path, then the
    WHOLE payload is handed to `FECGroupManager::add_source_packet` as a
    single pending packet — there is no slicing into `block_size` pieces.
    When the group reaches `k` packets it is encoded (an encoder throw,
    e.g. a block-size mismatch, propagates: `none`), the k source + m
    repair frames are built and assigned to the scheduler-selected source
    and repair paths. -/
def MPQUICFECController.send_stream_data (st : CtrlState) (stream_data : List ℕ)
    (original_path_id : ℕ) : Option (CtrlState × List SendPacketMeta) :=
  if st.fec_enabled = false then
    let pn := (MPQUICFECController.get_next_packet_number st original_path_id).1
    let st1 := (MPQUICFECController.get_next_packet_number st original_path_id).2
    some (st1, [{ packet_number := pn, path_id := original_path_id, is_repair := false,
                  frame := { header := { frame_type := 0xF0, group_id := 0,
                                         block_index := 0, total_blocks := 0,
                                         payload_length := 0 },
                             payload := stream_data } }])
  else
    let st1 := (MPQUICFECController.get_next_packet_number st original_path_id).2
    let current1 := st1.current ++ [stream_data]
    if current1.length ≥ st1.k then
      match FECEncoder.encode st1.k st1.m st1.block_size current1 with
      | none => none
      | some parity =>
        let gid := st1.current_group_id
        let total := st1.k + st1.m
        let sources := (List.range current1.length).map (fun i =>
          PacketSendHook.wrap_source_frame gid i total (current1.getD i []))
        let frames := sources ++ repairFrames gid st1.k st1.m parity
        match PathScheduler.select_source_path st1.paths with
        | none => none
        | some sp =>
          match PathScheduler.select_repair_path st1.paths st1.corr sp with
          | none => none
          | some rp =>
            let st2 : CtrlState := { st1 with current := [], current_group_id := gid + 1 }
            some (MPQUICFECController.assign_frames sp rp frames st2)
    else
      some ({ st1 with current := current1 }, [])

/-- A sequence of `send_stream_data` calls, accumulating the emitted
    packet metadata. -/
def MPQUICFECController.run_send (st : CtrlState) :
    List (List ℕ × ℕ) → Option (CtrlState × List SendPacketMeta)
  | [] => some (st, [])
  | (d, p) :: rest =>
    match MPQUICFECController.send_stream_data st d p with
    | none => none
    | some (st1, ms) =>
      match MPQUICFECController.run_send st1 rest with
      | none => none
      | some (st2, ms') => some (st2, ms ++ ms')

/-! ## Multiplicative-weights update — `PathScheduler::update_weights`
    (src/unnamed/part_003)

This is the one place where the `double` computation involves `exp`, so
weights are modelled in `ℝ` (costs stay in `ℚ` and are cast).  `paths_`
and `weights_` share their key set in every controller run (a weight entry
is created exactly when a path is first seen), so one `Finset` of ids
carries both maps. -/

/-- `PathScheduler::compute_cost`:
    `max(0.001, 0.5*(rtt/100) + 0.3*loss + 0.2*(100/max(1,bw)))`. -/
def PathScheduler.compute_cost (s : PathState) : ℚ :=
  max 0.001 (0.5 * (s.rtt_ms / 100) + 0.3 * s.loss_rate + 0.2 * (100 / max 1 s.bandwidth_mbps))

structure SchedulerState where
  ids : Finset ℕ
  path : ℕ → PathState
  weight : ℕ → ℝ

/-- `PathScheduler::update_weights`: no-op on an empty path map; otherwise
    each weight is multiplied by `exp(-α * cost_i / max(0.001, Σcost))`
    (α = 0.1), floor-clamped to `0.001`, and then every weight is divided
    by the post-clamp sum.  The clamp happens BEFORE the renormalization. -/
noncomputable def PathScheduler.update_weights (st : SchedulerState) : SchedulerState :=
  if st.ids = ∅ then st
  else
    let total : ℚ := ∑ i ∈ st.ids, PathScheduler.compute_cost (st.path i)
    let clamped : ℕ → ℝ := fun i =>
      max 0.001 (st.weight i *
        Real.exp (-(0.1) * ((PathScheduler.compute_cost (st.path i) : ℝ) / max 0.001 (total : ℝ))))
    let S : ℝ := ∑ i ∈ st.ids, clamped i
    { st with weight := fun i => if i ∈ st.ids then clamped i / S else st.weight i }

/-- `PathScheduler::update_path_state`: insert/overwrite the path; a path
    not seen before gets initial weight `1 / max(1, |paths_|)` (size taken
    AFTER insertion); then `update_weights` runs. -/
noncomputable def PathScheduler.update_path_state (st : SchedulerState) (s : PathState) :
    SchedulerState :=
  let ids1 := insert s.path_id st.ids
  let path1 := Function.update st.path s.path_id s
  let weight1 := if s.path_id ∈ st.ids then st.weight
    else Function.update st.weight s.path_id (1 / max 1 (ids1.card : ℝ))
  PathScheduler.update_weights { ids := ids1, path := path1, weight := weight1 }

/-! ## Spec-side definition used for the refinement comparison of C8 -/

/-- The spec's redundancy-rate formula, transcribed from §4.6:
    `r = clamp(loss_src · 2.0 · (1 + rtt_src/200ms · 0.3), min_rate, max_rate)`. -/
def specRequiredRate (min_rate max_rate loss_rate rtt_ms : ℚ) : ℚ :=
  max min_rate (min max_rate (loss_rate * 2 * (1 + rtt_ms / 200 * 0.3)))

/-! ## Concrete states and runs used by the claim instances -/

/-- The emitted metadata of a possibly-thrown send result. -/
def metasOf (o : Option (CtrlState × List SendPacketMeta)) : List SendPacketMeta :=
  o.elim [] (·.2)

/-- A healthy path with id 0. -/
def onePath : PathState :=
  { path_id := 0, rtt_ms := 10, loss_rate := 0, bandwidth_mbps := 100,
    jitter_ms := 0, bytes_sent := 0, bytes_acked := 0, cwnd := 0 }

/-- A path with 90% loss (unavailable by the spec's definition). -/
def lossyPath : PathState :=
  { path_id := 0, rtt_ms := 50, loss_rate := 0.9, bandwidth_mbps := 10,
    jitter_ms := 0, bytes_sent := 0, bytes_acked := 0, cwnd := 0 }

/-- Fresh controller state after `add_path(0, _)`: counter of path 0 is 1. -/
def mkCtrl (k m block_size : ℕ) (paths : List PathState) : CtrlState :=
  { k := k, m := m, block_size := block_size, fec_enabled := true,
    current_group_id := 1, current := [],
    next_packet_numbers := fun p => if p = 0 then 1 else 0,
    paths := paths, corr := [] }

/-- Controller configured as in the spec's padding scenario
    (`k=4, m=2, block_size=1200`). -/
def c2Ctrl : CtrlState := mkCtrl 4 2 1200 [onePath]

def payload3000 : List ℕ := List.replicate 3000 0

/-- Controller with `k=1, m=1, block_size=2` over the single healthy path. -/
def c6Ctrl : CtrlState := mkCtrl 1 1 2 [onePath]

/-- Controller with `k=1, m=1, block_size=2` over the single lossy path. -/
def c3Ctrl : CtrlState := mkCtrl 1 1 2 [lossyPath]

/-- Identical path states (cost `1.2` each) used in the C7 run. -/
def c7path (i : ℕ) : PathState :=
  { path_id := i, rtt_ms := 200, loss_rate := 0, bandwidth_mbps := 100,
    jitter_ms := 0, bytes_sent := 0, bytes_acked := 0, cwnd := 0 }

/-- Scheduler before any path is added. -/
def c7init : SchedulerState :=
  { ids := ∅, path := fun i => c7path i, weight := fun _ => 0 }

/-- `n` successive `update_path_state` calls adding paths `0, …, n-1`. -/
noncomputable def c7run (n : ℕ) : SchedulerState :=
  (List.range n).foldl (fun st i => PathScheduler.update_path_state st (c7path i)) c7init

/-! ## Helper lemmas -/

theorem beBytes_length (n v : ℕ) : (beBytes n v).length = n := by
  induction n generalizing v with
  | zero => rfl
  | succ n ih => simp [beBytes, ih]

theorem parseBE_beBytes_general (n v acc : ℕ) (h : v < 256 ^ n) :
    (beBytes n v).foldl (fun acc b => acc * 256 + b) acc = acc * 256 ^ n + v := by
  induction n generalizing v acc with
  | zero =>
      interval_cases v
      simp [beBytes]
  | succ n ih =>
      have hdiv : v / 256 < 256 ^ n := by
        rw [Nat.div_lt_iff_lt_mul (by norm_num)]
        calc v < 256 ^ (n + 1) := h
        _ = 256 ^ n * 256 := by ring
      simp only [beBytes, List.foldl_append, ih (v / 256) acc hdiv, List.foldl_cons,
        List.foldl_nil]
      calc (acc * 256 ^ n + v / 256) * 256 + v % 256
          = acc * (256 ^ n * 256) + (256 * (v / 256) + v % 256) := by ring
        _ = acc * 256 ^ (n + 1) + v := by rw [Nat.div_add_mod, pow_succ]

theorem parseBE_beBytes (n v : ℕ) (h : v < 256 ^ n) : parseBE (beBytes n v) = v := by
  have := parseBE_beBytes_general n v 0 h
  simpa [parseBE] using this

/-! ## C1 — MDS recovery -/

/-- C1: the spec's MDS-recovery scenario (`k=4, m=2, block_size=4`, present
    `s[0], s[2], r[0], r[1]` with indices `[0,2,4,5]`) fails on the code:
    the XOR-placeholder decoder copies the two present source blocks and
    pads with zero blocks instead of recovering `s[1]` and `s[3]`, so the
    decode output is not the original source list. -/
theorem C1_xor_codec_fails_mds_recovery :
    (FECEncoder.encode 4 2 4 [[1,2,3,4],[5,6,7,8],[9,10,11,12],[13,14,15,16]]).isSome = true
  ∧ FECDecoder.decode 4 4
      ([[1,2,3,4],[9,10,11,12]] ++
        (FECEncoder.encode 4 2 4 [[1,2,3,4],[5,6,7,8],[9,10,11,12],[13,14,15,16]]).getD [])
      [0,2,4,5]
      = some [[1,2,3,4],[9,10,11,12],[0,0,0,0],[0,0,0,0]]
  ∧ ([[1,2,3,4],[9,10,11,12],[0,0,0,0],[0,0,0,0]] : List (List ℕ))
      ≠ [[1,2,3,4],[5,6,7,8],[9,10,11,12],[13,14,15,16]] := by
  decide

/-! ## C9 — correlation stores -/

/-- C9 counterexample: `PathScheduler::update_path_correlation` stores the
    coefficient in the scheduler's own map WITHOUT clamping: after
    `update(0, 1, 2)` the scheduler's `get(0, 1)` returns `2 ∉ [-1, 1]`. -/
theorem C9_counterexample_scheduler_store_unclamped :
    PathScheduler.get_path_correlation (PathScheduler.update_path_correlation [] 0 1 2) 0 1 = 2
  ∧ ¬ (PathScheduler.get_path_correlation
        (PathScheduler.update_path_correlation [] 0 1 2) 0 1 ≤ 1) := by
  decide

/-- C9 amended: `LossCorrelationMatrix::update_correlation` clamps to
    `[-1,1]` and stores under the canonical `(min,max)` key, its getter is
    symmetric, is `1` on the diagonal and `0` for never-updated pairs; the
    scheduler's own `update_path_correlation` has the same canonical-key,
    symmetric, diagonal and default behaviour but stores `rho` unclamped. -/
theorem C9_amended_correlation_stores (M : CorrStore) (i j a b : ℕ) (rho : ℚ) :
    LossCorrelationMatrix.get_correlation
        (LossCorrelationMatrix.update_correlation M i j rho) i j
      = (if i = j then 1 else max (-1) (min 1 rho))
  ∧ LossCorrelationMatrix.get_correlation
        (LossCorrelationMatrix.update_correlation M i j rho) j i
      = (if i = j then 1 else max (-1) (min 1 rho))
  ∧ LossCorrelationMatrix.get_correlation M a b = LossCorrelationMatrix.get_correlation M b a
  ∧ LossCorrelationMatrix.get_correlation M a a = 1
  ∧ ((min a b, max a b) ∉ M.map (·.1) → a ≠ b →
      LossCorrelationMatrix.get_correlation M a b = 0)
  ∧ PathScheduler.get_path_correlation
        (PathScheduler.update_path_correlation M i j rho) i j
      = (if i = j then 1 else rho)
  ∧ PathScheduler.get_path_correlation M a b = PathScheduler.get_path_correlation M b a := by
  refine ⟨?_, ?_, ?_, ?_, ?_, ?_, ?_⟩
  · by_cases hij : i = j
    · simp [LossCorrelationMatrix.get_correlation, hij]
    · simp [LossCorrelationMatrix.get_correlation, LossCorrelationMatrix.update_correlation,
        corrFind, List.find?, hij]
  · by_cases hij : i = j
    · simp [LossCorrelationMatrix.get_correlation, hij]
    · simp [LossCorrelationMatrix.get_correlation, LossCorrelationMatrix.update_correlation,
        corrFind, List.find?, hij, Ne.symm hij, min_comm j i, max_comm j i]
  · by_cases hab : a = b
    · simp [LossCorrelationMatrix.get_correlation, hab]
    · simp [LossCorrelationMatrix.get_correlation, hab, Ne.symm hab,
        min_comm a b, max_comm a b]
  · simp [LossCorrelationMatrix.get_correlation]
  · intro hmem hab
    have hfind : corrFind M (min a b, max a b) = none := by
      unfold corrFind
      rw [List.find?_eq_none.mpr]
      · rfl
      · intro e he
        simp only [decide_eq_true_eq]
        intro hkey
        exact hmem (by simpa [hkey] using List.mem_map_of_mem (·.1) he)
    simp [LossCorrelationMatrix.get_correlation, hab, hfind]
  · by_cases hij : i = j
    · simp [PathScheduler.get_path_correlation, hij]
    · simp [PathScheduler.get_path_correlation, PathScheduler.update_path_correlation,
        corrFind, List.find?, hij]
  · by_cases hab : a = b
    · simp [PathScheduler.get_path_correlation, hab]
    · simp [PathScheduler.get_path_correlation, hab, Ne.symm hab,
        min_comm a b, max_comm a b]

/-- C9 witness: the amended theorem at concrete inputs — the matrix clamps
    `ρ = 5` down to `1`, never-updated pairs read `0`. -/
theorem C9_amended_witness :
    LossCorrelationMatrix.get_correlation
      (LossCorrelationMatrix.update_correlation [] 0 1 5) 0 1 = 1
  ∧ LossCorrelationMatrix.get_correlation ([] : CorrStore) 2 3 = 0 := by
  constructor
  · have h := (C9_amended_correlation_stores [] 0 1 2 3 5).1
    simpa using h
  · exact (C9_amended_correlation_stores [] 0 1 2 3 5).2.2.2.2.1 (by decide) (by decide)

/-! ## C5 — parse failure modes -/

/-- C5 counterexample: 25 zero bytes have type byte `0x00`, which is
    neither `0xF0` nor `0xF1`, yet `deserialize` succeeds and produces a
    frame — there is no `UnknownFrameType` check in the code. -/
theorem C5_counterexample_no_frame_type_check :
    FECFrame.deserialize (List.replicate 25 0)
      = .ok { header := { frame_type := 0, group_id := 0, block_index := 0,
                          total_blocks := 0, payload_length := 0 }, payload := [] }
  ∧ (0 : ℕ) ≠ 0xF0 ∧ (0 : ℕ) ≠ 0xF1 := by
  exact ⟨rfl, by decide, by decide⟩

/-- C5 amended: `deserialize` fails with `ShortHeader` on fewer than 25
    bytes and with `ShortPayload` on fewer than `25 + payload_length`
    bytes (no frame produced in either case); otherwise it succeeds — the
    type byte is never validated, so no `UnknownFrameType` failure exists. -/
theorem C5_amended_parse_failures (bytes : List ℕ) :
    (bytes.length < 25 → FECFrame.deserialize bytes = .error .ShortHeader)
  ∧ (∀ h, FECFrameHeader.deserialize bytes = .ok h →
      (bytes.length < 25 + h.payload_length →
        FECFrame.deserialize bytes = .error .ShortPayload)
    ∧ (25 + h.payload_length ≤ bytes.length →
        FECFrame.deserialize bytes
          = .ok ⟨h, (bytes.drop 25).take h.payload_length⟩)) := by
  constructor
  · intro hlen
    have hhd : FECFrameHeader.deserialize bytes = .error .ShortHeader := by
      simp only [FECFrameHeader.deserialize, HEADER_SIZE]
      rw [if_pos hlen]
    unfold FECFrame.deserialize
    rw [hhd]
  · intro h hok
    constructor
    · intro hlen
      unfold FECFrame.deserialize
      rw [hok]
      exact if_pos hlen
    · intro hlen
      unfold FECFrame.deserialize
      rw [hok]
      exact if_neg (not_lt.mpr hlen)

/-- C5 witness: the amended theorem at concrete byte strings — a 10-byte
    input yields `ShortHeader`; a 25-byte input announcing 1 payload byte
    yields `ShortPayload`. -/
theorem C5_amended_witness :
    FECFrame.deserialize (List.replicate 10 0) = .error .ShortHeader
  ∧ FECFrame.deserialize (List.replicate 20 0 ++ [1, 0, 0, 0, 0]) = .error .ShortPayload := by
  constructor
  · exact (C5_amended_parse_failures _).1 (by decide)
  · exact ((C5_amended_parse_failures (List.replicate 20 0 ++ [1, 0, 0, 0, 0])).2
      { frame_type := 0, group_id := 0, block_index := 0, total_blocks := 0,
        payload_length := 1 } (by rfl)).1 (by decide)

/-! ## C8 — redundancy decision -/

/-- C8: `estimate_required_redundancy` equals the spec's clamp formula
    `clamp(loss·2·(1 + rtt/200·0.3), min_rate, max_rate)`, the `(k, m)`
    mapping picks `k = 10` below rate `0.2`, `k = 4` above `0.6`, else
    `k = 8`, clamps `m = ⌈k·rate⌉` into `[1, k]`, and therefore every
    decision satisfies `1 ≤ m ≤ k`. -/
theorem C8_redundancy_decision (min_rate max_rate loss_rate rtt_ms rate : ℚ) :
    OCORedundancyController.estimate_required_redundancy min_rate max_rate loss_rate rtt_ms
      = specRequiredRate min_rate max_rate loss_rate rtt_ms
  ∧ (OCORedundancyController.redundancy_rate_to_params rate).1
      = (if rate < 0.2 then 10 else if rate > 0.6 then 4 else 8)
  ∧ (OCORedundancyController.redundancy_rate_to_params rate).2
      = max 1 (min ((Int.ceil
          (((if rate < 0.2 then 10 else if rate > 0.6 then 4 else 8 : ℕ) : ℚ) * rate)).toNat)
          (if rate < 0.2 then 10 else if rate > 0.6 then 4 else 8))
  ∧ 1 ≤ (OCORedundancyController.redundancy_rate_to_params rate).2
  ∧ (OCORedundancyController.redundancy_rate_to_params rate).2
      ≤ (OCORedundancyController.redundancy_rate_to_params rate).1 := by
  refine ⟨rfl, rfl, rfl, le_max_left _ _, ?_⟩
  unfold OCORedundancyController.redundancy_rate_to_params
  dsimp only
  refine max_le ?_ (min_le_right _ _)
  split
  · norm_num
  · split <;> norm_num

/-! ## C3 — availability and selection -/

/-- C3 counterexample: with the single 90%-loss path, `is_path_available`
    is false, yet `select_source_path` still returns that path and
    `send_stream_data` completes a group on it instead of failing with
    `NoPathsAvailable` — the selection has no availability filter. -/
theorem C3_counterexample_selection_ignores_availability :
    PathScheduler.is_path_available [lossyPath] 0 = false
  ∧ PathScheduler.select_source_path [lossyPath] = some 0
  ∧ (MPQUICFECController.send_stream_data c3Ctrl [7, 7] 0).isSome = true
  ∧ (metasOf (MPQUICFECController.send_stream_data c3Ctrl [7, 7] 0)).length = 2 := by
  refine ⟨?_, ?_, ?_, ?_⟩
  · norm_num [PathScheduler.is_path_available, lossyPath, List.find?]
  · norm_num [PathScheduler.select_source_path, sourceScore, lossyPath]
  · norm_num [MPQUICFECController.send_stream_data, MPQUICFECController.get_next_packet_number,
      c3Ctrl, mkCtrl, lossyPath, FECEncoder.encode, PathScheduler.select_source_path,
      PathScheduler.select_repair_path, sourceScore, MPQUICFECController.assign_frames,
      repairFrames, PacketSendHook.wrap_source_frame]
  · norm_num [MPQUICFECController.send_stream_data, MPQUICFECController.get_next_packet_number,
      c3Ctrl, mkCtrl, lossyPath, FECEncoder.encode, PathScheduler.select_source_path,
      PathScheduler.select_repair_path, sourceScore, MPQUICFECController.assign_frames,
      repairFrames, PacketSendHook.wrap_source_frame, metasOf]

theorem select_source_fold_mem (P : ℕ → Prop) (l : List PathState) :
    ∀ init : ℕ × ℚ, P init.1 → (∀ s ∈ l, P s.path_id) →
      P (l.foldl
        (fun best s => if sourceScore s > best.2 then (s.path_id, sourceScore s) else best)
        init).1 := by
  induction l with
  | nil => intro init h _; exact h
  | cons s rest ih =>
      intro init hinit hall
      simp only [List.foldl_cons]
      apply ih
      · by_cases hc : sourceScore s > init.2
        · rw [if_pos hc]; exact hall s (List.mem_cons_self s rest)
        · rw [if_neg hc]; exact hinit
      · intro t ht; exact hall t (List.mem_cons_of_mem s ht)

/-- C3 amended: availability is exactly `loss_rate < 0.5 ∧ bw > 0.1`, but
    the selection operations do not filter by it: `select_source_path`
    fails (`NoPathsAvailable`) only when the path map is empty, and
    otherwise returns some tracked path regardless of its availability —
    with every path at 90% loss, `send_stream_data` still selects a path
    rather than failing. -/
theorem C3_amended_availability (paths : List PathState) (path_id : ℕ) (s : PathState) :
    (paths.find? (fun t => t.path_id = path_id) = some s →
      (PathScheduler.is_path_available paths path_id = true
        ↔ (s.loss_rate < 0.5 ∧ 0.1 < s.bandwidth_mbps)))
  ∧ (PathScheduler.select_source_path paths = none ↔ paths = [])
  ∧ (∀ i, PathScheduler.select_source_path paths = some i → i ∈ paths.map (·.path_id)) := by
  refine ⟨?_, ?_, ?_⟩
  · intro hfind
    unfold PathScheduler.is_path_available
    rw [hfind]
    simp
  · cases paths with
    | nil => simp [PathScheduler.select_source_path]
    | cons first rest => simp [PathScheduler.select_source_path]
  · intro i hi
    cases paths with
    | nil => simp [PathScheduler.select_source_path] at hi
    | cons first rest =>
        simp only [PathScheduler.select_source_path, Option.some.injEq] at hi
        rw [← hi]
        apply select_source_fold_mem
        · exact List.mem_map_of_mem _ (List.mem_cons_self first rest)
        · intro t ht; exact List.mem_map_of_mem _ ht

/-- C3 witness: the amended theorem at the lossy single-path instance. -/
theorem C3_amended_witness :
    (PathScheduler.is_path_available [lossyPath] 0 = true
      ↔ (lossyPath.loss_rate < 0.5 ∧ 0.1 < lossyPath.bandwidth_mbps))
  ∧ (PathScheduler.select_source_path [lossyPath] = none
      ↔ ([lossyPath] : List PathState) = []) :=
  ⟨(C3_amended_availability [lossyPath] 0 lossyPath).1 rfl,
   (C3_amended_availability [lossyPath] 0 lossyPath).2.1⟩

/-! ## C10 — receiver-side (k, m) inference -/

theorem mapFind_mapInsert_self {α : Type} (key : ℕ) (v : α) (l : List (ℕ × α)) :
    mapFind key (mapInsert key v l) = some v := by
  induction l with
  | nil => simp [mapInsert, mapFind, List.find?]
  | cons e rest ih =>
      by_cases h1 : key < e.1
      · simp [mapInsert, h1, mapFind, List.find?]
      · by_cases h2 : key = e.1
        · simp [mapInsert, h1, h2, mapFind, List.find?]
        · have : ¬ (e.1 = key) := fun h => h2 h.symm
          simp [mapInsert, h1, h2, mapFind, List.find?, this] at ih ⊢
          exact ih

theorem try_decode_group_fields (g : ReceivedGroup) :
    (PacketReceiveHook.try_decode_group g).1.k = g.k
  ∧ (PacketReceiveHook.try_decode_group g).1.m = g.m
  ∧ (PacketReceiveHook.try_decode_group g).1.block_size = g.block_size := by
  unfold PacketReceiveHook.try_decode_group
  split
  · exact ⟨rfl, rfl, rfl⟩
  · split <;> exact ⟨rfl, rfl, rfl⟩

theorem decode_branch_fields (c : Prop) [Decidable c] (g : ReceivedGroup) :
    ((if c then PacketReceiveHook.try_decode_group g else (g, [])).1).k = g.k
  ∧ ((if c then PacketReceiveHook.try_decode_group g else (g, [])).1).m = g.m
  ∧ ((if c then PacketReceiveHook.try_decode_group g else (g, [])).1).block_size
      = g.block_size := by
  split
  · exact try_decode_group_fields g
  · exact ⟨rfl, rfl, rfl⟩

theorem on_frame_received_group_fresh (frame : FECFrame) :
    ((PacketReceiveHook.on_frame_received_group default frame).1).k
        = frame.header.total_blocks * 2 / 3
  ∧ ((PacketReceiveHook.on_frame_received_group default frame).1).m
        = frame.header.total_blocks - frame.header.total_blocks * 2 / 3
  ∧ ((PacketReceiveHook.on_frame_received_group default frame).1).block_size
        = frame.payload.length := by
  unfold PacketReceiveHook.on_frame_received_group
  simp only [ge_iff_le]
  exact decode_branch_fields _ _

/-- C10: on the first frame of a fresh group the receive hook never sees
    the sender's `(k, m)`: it stores `k = total_blocks * 2 / 3` (integer
    division, the hard-coded 2:1 source:repair assumption) and
    `m = total_blocks - k`, and it attempts decode only once the number of
    distinct block indices reaches that inferred `k` — so whenever the true
    `k` differs from `2(k+m)/3`, the decode threshold is wrong. -/
theorem C10_receiver_infers_k (groups : List (ℕ × ReceivedGroup)) (frame : FECFrame)
    (kTrue mTrue : ℕ)
    (hfresh : mapFind frame.header.group_id groups = none)
    (_hgid : frame.header.group_id ≠ 0)
    (htot : frame.header.total_blocks = kTrue + mTrue) :
    (∃ g, mapFind frame.header.group_id
          (PacketReceiveHook.on_frame_received groups frame).1 = some g
      ∧ g.k = (kTrue + mTrue) * 2 / 3
      ∧ g.m = (kTrue + mTrue) - (kTrue + mTrue) * 2 / 3
      ∧ g.block_size = frame.payload.length
      ∧ (kTrue ≠ (kTrue + mTrue) * 2 / 3 → g.k ≠ kTrue))
  ∧ (∀ g : ReceivedGroup, g.group_id ≠ 0 →
      (mapInsert frame.header.block_index frame g.received_frames).length < g.k →
      PacketReceiveHook.on_frame_received_group g frame
        = ({ g with received_frames :=
              mapInsert frame.header.block_index frame g.received_frames }, [])) := by
  constructor
  · have hrec : PacketReceiveHook.on_frame_received groups frame
        = (mapInsert frame.header.group_id
            (PacketReceiveHook.on_frame_received_group default frame).1 groups,
           (PacketReceiveHook.on_frame_received_group default frame).2) := by
      unfold PacketReceiveHook.on_frame_received
      rw [hfresh, Option.getD_none]
    obtain ⟨hk, hm, hbs⟩ := on_frame_received_group_fresh frame
    refine ⟨(PacketReceiveHook.on_frame_received_group default frame).1, ?_, ?_, ?_, hbs, ?_⟩
    · rw [hrec]; exact mapFind_mapInsert_self _ _ _
    · rw [hk, htot]
    · rw [hm, htot]
    · intro hne heq
      have h2 : (PacketReceiveHook.on_frame_received_group default frame).1.k
          = (kTrue + mTrue) * 2 / 3 := by rw [hk, htot]
      exact hne (heq ▸ h2)
  · intro g hg hlt
    unfold PacketReceiveHook.on_frame_received_group
    simp only [ge_iff_le]
    rw [if_neg hg, if_neg (by exact not_le.mpr hlt)]

/-- C10 witness: a fresh group whose first frame announces
    `total_blocks = 10` (true `k = 8, m = 2`): the stored decode threshold
    is `(8+2)*2/3 = 6 ≠ 8`. -/
theorem C10_witness :
    (mapFind 5 (PacketReceiveHook.on_frame_received []
        ⟨⟨0xF0, 5, 0, 10, 2⟩, [1, 2]⟩).1).map (fun g => g.k) = some ((8 + 2) * 2 / 3)
  ∧ (mapFind 5 (PacketReceiveHook.on_frame_received []
        ⟨⟨0xF0, 5, 0, 10, 2⟩, [1, 2]⟩).1).map (fun g => g.k) ≠ some 8 := by
  obtain ⟨g, hfind, hk, -, -, hne⟩ := (C10_receiver_infers_k []
    ⟨⟨0xF0, 5, 0, 10, 2⟩, [1, 2]⟩ 8 2 rfl (by decide) rfl).1
  rw [hfind]
  refine ⟨by simp only [Option.map_some']; rw [hk], ?_⟩
  simp only [Option.map_some']
  intro hcontra
  simp only [Option.some.injEq] at hcontra
  exact hne (by decide) (hk ▸ hcontra)

/-! ## C4 — frame codec round trip -/

/-- C4: for every well-formed frame (`frame_type` 0xF0 or 0xF1, the header
    integers within their machine widths, `payload_length` equal to the
    payload size), `deserialize (serialize f) = f`; `serialize` produces
    exactly `25 + L` bytes, and the 4 reserved header bytes (offsets
    21..24) are zero. -/
theorem C4_frame_roundtrip (f : FECFrame)
    (hty : f.header.frame_type = 0xF0 ∨ f.header.frame_type = 0xF1)
    (hg : f.header.group_id < 256 ^ 8)
    (hb : f.header.block_index < 256 ^ 4)
    (htb : f.header.total_blocks < 256 ^ 4)
    (hpl : f.header.payload_length < 256 ^ 4)
    (hplen : f.header.payload_length = f.payload.length) :
    FECFrame.deserialize (FECFrame.serialize f) = .ok f
  ∧ (FECFrame.serialize f).length = 25 + f.payload.length
  ∧ ((FECFrame.serialize f).drop 21).take 4 = [0, 0, 0, 0] := by
  obtain ⟨⟨t, g, bi, tb, pl⟩, P⟩ := f
  simp only at hty hg hb htb hpl hplen
  have ht256 : t < 256 := by rcases hty with h | h <;> (subst h; norm_num)
  have htmod : t % 256 = t := Nat.mod_eq_of_lt ht256
  have hAl : (beBytes 8 g).length = 8 := beBytes_length _ _
  have hBl : (beBytes 4 bi).length = 4 := beBytes_length _ _
  have hCl : (beBytes 4 tb).length = 4 := beBytes_length _ _
  have hDl : (beBytes 4 pl).length = 4 := beBytes_length _ _
  have hser1 : FECFrame.serialize ⟨⟨t, g, bi, tb, pl⟩, P⟩
      = [t % 256] ++ (beBytes 8 g ++ (beBytes 4 bi ++ (beBytes 4 tb ++
          (beBytes 4 pl ++ ([0, 0, 0, 0] ++ P))))) := by
    simp [FECFrame.serialize, FECFrameHeader.serialize, List.append_assoc]
  have hser9 : FECFrame.serialize ⟨⟨t, g, bi, tb, pl⟩, P⟩
      = ([t % 256] ++ beBytes 8 g) ++ (beBytes 4 bi ++ (beBytes 4 tb ++
          (beBytes 4 pl ++ ([0, 0, 0, 0] ++ P)))) := by
    simp [FECFrame.serialize, FECFrameHeader.serialize, List.append_assoc]
  have hser13 : FECFrame.serialize ⟨⟨t, g, bi, tb, pl⟩, P⟩
      = ([t % 256] ++ beBytes 8 g ++ beBytes 4 bi) ++ (beBytes 4 tb ++
          (beBytes 4 pl ++ ([0, 0, 0, 0] ++ P))) := by
    simp [FECFrame.serialize, FECFrameHeader.serialize, List.append_assoc]
  have hser17 : FECFrame.serialize ⟨⟨t, g, bi, tb, pl⟩, P⟩
      = ([t % 256] ++ beBytes 8 g ++ beBytes 4 bi ++ beBytes 4 tb) ++
          (beBytes 4 pl ++ ([0, 0, 0, 0] ++ P)) := by
    simp [FECFrame.serialize, FECFrameHeader.serialize, List.append_assoc]
  have hser21 : FECFrame.serialize ⟨⟨t, g, bi, tb, pl⟩, P⟩
      = ([t % 256] ++ beBytes 8 g ++ beBytes 4 bi ++ beBytes 4 tb ++ beBytes 4 pl) ++
          ([0, 0, 0, 0] ++ P) := by
    simp [FECFrame.serialize, FECFrameHeader.serialize, List.append_assoc]
  have hser25 : FECFrame.serialize ⟨⟨t, g, bi, tb, pl⟩, P⟩
      = ([t % 256] ++ beBytes 8 g ++ beBytes 4 bi ++ beBytes 4 tb ++ beBytes 4 pl ++
          [0, 0, 0, 0]) ++ P := by
    simp [FECFrame.serialize, FECFrameHeader.serialize, List.append_assoc]
  have hlen25 : (FECFrame.serialize ⟨⟨t, g, bi, tb, pl⟩, P⟩).length = 25 + P.length := by
    rw [hser1]
    simp [hAl, hBl, hCl, hDl]
    omega
  have e1 : (FECFrame.serialize ⟨⟨t, g, bi, tb, pl⟩, P⟩).getD 0 0 = t := by
    rw [hser1]
    simpa using htmod
  have e2 : ((FECFrame.serialize ⟨⟨t, g, bi, tb, pl⟩, P⟩).drop 1).take 8 = beBytes 8 g := by
    rw [hser1, List.drop_left' (by simp), List.take_left' hAl]
  have e3 : ((FECFrame.serialize ⟨⟨t, g, bi, tb, pl⟩, P⟩).drop 9).take 4 = beBytes 4 bi := by
    rw [hser9, List.drop_left' (by simp [hAl]), List.take_left' hBl]
  have e4 : ((FECFrame.serialize ⟨⟨t, g, bi, tb, pl⟩, P⟩).drop 13).take 4 = beBytes 4 tb := by
    rw [hser13, List.drop_left' (by simp [hAl, hBl]), List.take_left' hCl]
  have e5 : ((FECFrame.serialize ⟨⟨t, g, bi, tb, pl⟩, P⟩).drop 17).take 4 = beBytes 4 pl := by
    rw [hser17, List.drop_left' (by simp [hAl, hBl, hCl]), List.take_left' hDl]
  have e6 : ((FECFrame.serialize ⟨⟨t, g, bi, tb, pl⟩, P⟩).drop 21).take 4 = [0, 0, 0, 0] := by
    rw [hser21, List.drop_left' (by simp [hAl, hBl, hCl, hDl]),
      List.take_left' (by simp)]
  have e7 : (FECFrame.serialize ⟨⟨t, g, bi, tb, pl⟩, P⟩).drop 25 = P := by
    rw [hser25, List.drop_left' (by simp [hAl, hBl, hCl, hDl])]
  have hhd : FECFrameHeader.deserialize (FECFrame.serialize ⟨⟨t, g, bi, tb, pl⟩, P⟩)
      = .ok ⟨t, g, bi, tb, pl⟩ := by
    simp only [FECFrameHeader.deserialize, HEADER_SIZE]
    rw [if_neg (by rw [hlen25]; omega)]
    refine congrArg Except.ok ?_
    rw [FECFrameHeader.mk.injEq]
    exact ⟨e1, by rw [e2]; exact parseBE_beBytes 8 g hg,
      by rw [e3]; exact parseBE_beBytes 4 bi hb,
      by rw [e4]; exact parseBE_beBytes 4 tb htb,
      by rw [e5]; exact parseBE_beBytes 4 pl hpl⟩
  refine ⟨?_, hlen25, e6⟩
  unfold FECFrame.deserialize
  rw [hhd]
  simp only [HEADER_SIZE]
  rw [if_neg (by rw [hlen25, hplen]; omega)]
  refine congrArg Except.ok ?_
  rw [FECFrame.mk.injEq]
  exact ⟨rfl, by rw [e7, hplen, List.take_length]⟩

/-- C4 witness: the round trip at the spec's wire-round-trip frame
    (`group_id = 0xDEADBEEF, block_index = 7, total_blocks = 10`, repair
    type, 2-byte payload). -/
theorem C4_frame_roundtrip_witness :
    FECFrame.deserialize (FECFrame.serialize ⟨⟨0xF1, 0xDEADBEEF, 7, 10, 2⟩, [0xAA, 0xAA]⟩)
      = .ok ⟨⟨0xF1, 0xDEADBEEF, 7, 10, 2⟩, [0xAA, 0xAA]⟩
  ∧ (FECFrame.serialize ⟨⟨0xF1, 0xDEADBEEF, 7, 10, 2⟩, [0xAA, 0xAA]⟩).length = 25 + 2
  ∧ ((FECFrame.serialize ⟨⟨0xF1, 0xDEADBEEF, 7, 10, 2⟩, [0xAA, 0xAA]⟩).drop 21).take 4
      = [0, 0, 0, 0] :=
  C4_frame_roundtrip ⟨⟨0xF1, 0xDEADBEEF, 7, 10, 2⟩, [0xAA, 0xAA]⟩
    (Or.inr rfl) (by norm_num) (by norm_num) (by norm_num) (by norm_num) rfl

/-! ## C2 — no slicing in `send_stream_data` -/

/-- C2 counterexample: sending 3000 bytes with `block_size = 1200, k = 4`
    emits NO frames and hands the group manager a single 3000-byte pending
    packet — the payload is not sliced into `block_size` pieces, so the
    call does not produce the claimed 4 source + m repair frames. -/
theorem C2_counterexample_payload_not_sliced :
    metasOf (MPQUICFECController.send_stream_data c2Ctrl payload3000 0) = []
  ∧ (MPQUICFECController.send_stream_data c2Ctrl payload3000 0).isSome = true
  ∧ ((MPQUICFECController.send_stream_data c2Ctrl payload3000 0).elim []
      (fun r => r.1.current)).map (·.length) = [3000]
  ∧ (3000 : ℕ) ≠ 1200 ∧ ([3000] : List ℕ).length ≠ 4 := by
  have hsend : MPQUICFECController.send_stream_data c2Ctrl payload3000 0
      = some ({ c2Ctrl with
          next_packet_numbers := Function.update c2Ctrl.next_packet_numbers 0
            (c2Ctrl.next_packet_numbers 0 + 1),
          current := [payload3000] }, []) := by
    unfold MPQUICFECController.send_stream_data MPQUICFECController.get_next_packet_number
    norm_num [c2Ctrl, mkCtrl]
  refine ⟨by rw [hsend]; rfl, by rw [hsend]; rfl,
    by rw [hsend]
       simp only [Option.elim_some, List.map_cons, List.map_nil, payload3000,
         List.length_replicate],
    by norm_num, by norm_num⟩

/-- C2 amended: with FEC enabled, each `send_stream_data` call submits the
    ENTIRE payload as one pending source packet, with no slicing into
    `block_size` pieces and no padding; while the open group still has
    fewer than `k` packets after the call, no frame is emitted (and one
    packet number is consumed on the origin path). -/
theorem C2_amended_whole_payload_one_block (st : CtrlState) (d : List ℕ) (origin : ℕ)
    (hfec : st.fec_enabled = true) (hlen : st.current.length + 1 < st.k) :
    MPQUICFECController.send_stream_data st d origin
      = some ({ st with
          next_packet_numbers := Function.update st.next_packet_numbers origin
            (st.next_packet_numbers origin + 1),
          current := st.current ++ [d] }, []) := by
  unfold MPQUICFECController.send_stream_data MPQUICFECController.get_next_packet_number
  rw [if_neg (show ¬(st.fec_enabled = false) by simp [hfec])]
  rw [if_neg (by simp only [List.length_append, List.length_singleton]; omega)]

/-- C2 witness: the amended theorem at the 3000-byte instance. -/
theorem C2_amended_witness :
    MPQUICFECController.send_stream_data c2Ctrl payload3000 0
      = some ({ c2Ctrl with
          next_packet_numbers := Function.update c2Ctrl.next_packet_numbers 0
            (c2Ctrl.next_packet_numbers 0 + 1),
          current := c2Ctrl.current ++ [payload3000] }, []) :=
  C2_amended_whole_payload_one_block c2Ctrl payload3000 0 rfl (by norm_num [c2Ctrl, mkCtrl])

/-! ## C6 — packet numbers per path -/

theorem update_bump_le (f : ℕ → ℕ) (o q : ℕ) : f q ≤ Function.update f o (f o + 1) q := by
  rcases eq_or_ne q o with rfl | hne
  · simp
  · simp [Function.update_apply, hne]

theorem assign_frames_npn (sp rp : ℕ) (frames : List FECFrame) (st : CtrlState) (q : ℕ) :
    st.next_packet_numbers q
      ≤ (MPQUICFECController.assign_frames sp rp frames st).1.next_packet_numbers q := by
  induction frames generalizing st with
  | nil => simp [MPQUICFECController.assign_frames]
  | cons fr rest ih =>
      simp only [MPQUICFECController.assign_frames]
      refine le_trans ?_ (ih _)
      exact update_bump_le _ _ _

theorem assign_frames_meta (sp rp : ℕ) (frames : List FECFrame) (st : CtrlState) :
    ∀ mm ∈ (MPQUICFECController.assign_frames sp rp frames st).2,
      st.next_packet_numbers mm.path_id ≤ mm.packet_number
      ∧ mm.packet_number
          < (MPQUICFECController.assign_frames sp rp frames st).1.next_packet_numbers
              mm.path_id := by
  induction frames generalizing st with
  | nil => simp [MPQUICFECController.assign_frames]
  | cons fr rest ih =>
      intro mm hmm
      simp only [MPQUICFECController.assign_frames, List.mem_cons] at hmm
      rcases hmm with rfl | hmm
      · constructor
        · exact le_refl _
        · refine lt_of_lt_of_le ?_ (assign_frames_npn sp rp rest _ _)
          simp [Function.update_same]
      · obtain ⟨h1, h2⟩ := ih _ mm hmm
        exact ⟨le_trans (update_bump_le _ _ _) h1, h2⟩

theorem assign_frames_pairwise (sp rp : ℕ) (frames : List FECFrame) (st : CtrlState) :
    ((MPQUICFECController.assign_frames sp rp frames st).2).Pairwise
      (fun a b => a.path_id = b.path_id → a.packet_number < b.packet_number) := by
  induction frames generalizing st with
  | nil => simp [MPQUICFECController.assign_frames]
  | cons fr rest ih =>
      simp only [MPQUICFECController.assign_frames]
      refine List.Pairwise.cons ?_ (ih _)
      intro mm hmm hpid
      obtain ⟨h1, -⟩ := assign_frames_meta sp rp rest _ mm hmm
      dsimp only at hpid h1 ⊢
      rw [← hpid, Function.update_same] at h1
      omega

theorem send_stream_data_npn (st : CtrlState) (d : List ℕ) (o : ℕ)
    (st' : CtrlState) (ms : List SendPacketMeta)
    (h : MPQUICFECController.send_stream_data st d o = some (st', ms)) (q : ℕ) :
    st.next_packet_numbers q ≤ st'.next_packet_numbers q := by
  unfold MPQUICFECController.send_stream_data at h
  split at h
  · simp only [Option.some.injEq, Prod.mk.injEq] at h
    obtain ⟨h1, -⟩ := h
    rw [← h1]
    exact update_bump_le st.next_packet_numbers o q
  · dsimp only at h
    split at h
    · split at h
      · exact absurd h (by simp)
      · split at h
        · exact absurd h (by simp)
        · split at h
          · exact absurd h (by simp)
          · simp only [Option.some.injEq] at h
            have h1 : (MPQUICFECController.assign_frames _ _ _ _).1 = st' :=
              congrArg Prod.fst h
            rw [← h1]
            refine le_trans ?_ (assign_frames_npn _ _ _ _ q)
            exact update_bump_le _ _ _
    · simp only [Option.some.injEq, Prod.mk.injEq] at h
      obtain ⟨h1, -⟩ := h
      rw [← h1]
      exact update_bump_le st.next_packet_numbers o q

theorem send_stream_data_meta (st : CtrlState) (d : List ℕ) (o : ℕ)
    (st' : CtrlState) (ms : List SendPacketMeta)
    (h : MPQUICFECController.send_stream_data st d o = some (st', ms)) :
    ∀ mm ∈ ms, st.next_packet_numbers mm.path_id ≤ mm.packet_number
      ∧ mm.packet_number < st'.next_packet_numbers mm.path_id := by
  unfold MPQUICFECController.send_stream_data at h
  split at h
  · simp only [Option.some.injEq, Prod.mk.injEq] at h
    obtain ⟨h1, h2⟩ := h
    intro mm hmm
    rw [← h2] at hmm
    simp only [List.mem_singleton] at hmm
    subst hmm
    constructor
    · exact le_refl _
    · rw [← h1]
      simp [MPQUICFECController.get_next_packet_number, Function.update_same]
  · dsimp only at h
    split at h
    · split at h
      · exact absurd h (by simp)
      · split at h
        · exact absurd h (by simp)
        · split at h
          · exact absurd h (by simp)
          · simp only [Option.some.injEq] at h
            intro mm hmm
            have h2 : (MPQUICFECController.assign_frames _ _ _ _).2 = ms :=
              congrArg Prod.snd h
            have h1 : (MPQUICFECController.assign_frames _ _ _ _).1 = st' :=
              congrArg Prod.fst h
            rw [← h2] at hmm
            obtain ⟨hlow, hhigh⟩ := assign_frames_meta _ _ _ _ mm hmm
            rw [h1] at hhigh
            exact ⟨le_trans (update_bump_le st.next_packet_numbers o mm.path_id) hlow, hhigh⟩
    · simp only [Option.some.injEq, Prod.mk.injEq] at h
      obtain ⟨-, h2⟩ := h
      intro mm hmm
      rw [← h2] at hmm
      simp at hmm

theorem send_stream_data_pairwise (st : CtrlState) (d : List ℕ) (o : ℕ)
    (st' : CtrlState) (ms : List SendPacketMeta)
    (h : MPQUICFECController.send_stream_data st d o = some (st', ms)) :
    ms.Pairwise (fun a b => a.path_id = b.path_id → a.packet_number < b.packet_number) := by
  unfold MPQUICFECController.send_stream_data at h
  split at h
  · simp only [Option.some.injEq, Prod.mk.injEq] at h
    obtain ⟨-, h2⟩ := h
    rw [← h2]
    simp
  · dsimp only at h
    split at h
    · split at h
      · exact absurd h (by simp)
      · split at h
        · exact absurd h (by simp)
        · split at h
          · exact absurd h (by simp)
          · simp only [Option.some.injEq] at h
            have h2 : (MPQUICFECController.assign_frames _ _ _ _).2 = ms :=
              congrArg Prod.snd h
            rw [← h2]
            exact assign_frames_pairwise _ _ _ _
    · simp only [Option.some.injEq, Prod.mk.injEq] at h
      obtain ⟨-, h2⟩ := h
      rw [← h2]
      simp

theorem run_send_npn (calls : List (List ℕ × ℕ)) (st0 st : CtrlState)
    (ms : List SendPacketMeta)
    (h : MPQUICFECController.run_send st0 calls = some (st, ms)) (q : ℕ) :
    st0.next_packet_numbers q ≤ st.next_packet_numbers q := by
  induction calls generalizing st0 ms with
  | nil =>
      simp only [MPQUICFECController.run_send, Option.some.injEq, Prod.mk.injEq] at h
      rw [h.1]
  | cons c rest ih =>
      obtain ⟨d, p⟩ := c
      simp only [MPQUICFECController.run_send] at h
      split at h
      · exact absurd h (by simp)
      · rename_i st1 ms1 heq1
        split at h
        · exact absurd h (by simp)
        · rename_i st2 ms2 heq2
          simp only [Option.some.injEq, Prod.mk.injEq] at h
          obtain ⟨h1, -⟩ := h
          subst h1
          exact le_trans (send_stream_data_npn _ _ _ _ _ heq1 q) (ih st1 ms2 heq2)

theorem run_send_meta (calls : List (List ℕ × ℕ)) (st0 st : CtrlState)
    (ms : List SendPacketMeta)
    (h : MPQUICFECController.run_send st0 calls = some (st, ms)) :
    ∀ mm ∈ ms, st0.next_packet_numbers mm.path_id ≤ mm.packet_number
      ∧ mm.packet_number < st.next_packet_numbers mm.path_id := by
  induction calls generalizing st0 ms with
  | nil =>
      simp only [MPQUICFECController.run_send, Option.some.injEq, Prod.mk.injEq] at h
      rw [← h.2]
      simp
  | cons c rest ih =>
      obtain ⟨d, p⟩ := c
      simp only [MPQUICFECController.run_send] at h
      split at h
      · exact absurd h (by simp)
      · rename_i st1 ms1 heq1
        split at h
        · exact absurd h (by simp)
        · rename_i st2 ms2 heq2
          simp only [Option.some.injEq, Prod.mk.injEq] at h
          obtain ⟨h1, h2⟩ := h
          subst h1
          intro mm hmm
          rw [← h2] at hmm
          rcases List.mem_append.mp hmm with hmem | hmem
          · obtain ⟨hl, hh⟩ := send_stream_data_meta _ _ _ _ _ heq1 mm hmem
            exact ⟨hl, lt_of_lt_of_le hh (run_send_npn rest st1 _ ms2 heq2 _)⟩
          · obtain ⟨hl, hh⟩ := ih st1 ms2 heq2 mm hmem
            exact ⟨le_trans (send_stream_data_npn _ _ _ _ _ heq1 _) hl, hh⟩

theorem run_send_pairwise (calls : List (List ℕ × ℕ)) (st0 st : CtrlState)
    (ms : List SendPacketMeta)
    (h : MPQUICFECController.run_send st0 calls = some (st, ms)) :
    ms.Pairwise (fun a b => a.path_id = b.path_id → a.packet_number < b.packet_number) := by
  induction calls generalizing st0 ms with
  | nil =>
      simp only [MPQUICFECController.run_send, Option.some.injEq, Prod.mk.injEq] at h
      rw [← h.2]
      simp
  | cons c rest ih =>
      obtain ⟨d, p⟩ := c
      simp only [MPQUICFECController.run_send] at h
      split at h
      · exact absurd h (by simp)
      · rename_i st1 ms1 heq1
        split at h
        · exact absurd h (by simp)
        · rename_i st2 ms2 heq2
          simp only [Option.some.injEq, Prod.mk.injEq] at h
          obtain ⟨h1, h2⟩ := h
          subst h1
          rw [← h2]
          rw [List.pairwise_append]
          refine ⟨send_stream_data_pairwise _ _ _ _ _ heq1, ih st1 ms2 heq2, ?_⟩
          intro a ha b hb hpid
          obtain ⟨-, hah⟩ := send_stream_data_meta _ _ _ _ _ heq1 a ha
          obtain ⟨hbl, -⟩ := run_send_meta rest st1 _ ms2 heq2 b hb
          calc a.packet_number < st1.next_packet_numbers a.path_id := hah
            _ = st1.next_packet_numbers b.path_id := by rw [hpid]
            _ ≤ b.packet_number := hbl

/-- C6 counterexample: with `k = 1, m = 1` on the single path 0, one
    `send_stream_data` call emits packets numbered 2 and 3 on path 0 —
    packet number 1 was consumed by the internal "fake" draw and is never
    assigned to an emitted packet, so the emitted sequence is neither
    gap-free nor starts at 1. -/
theorem C6_counterexample_gap_at_start :
    (metasOf (MPQUICFECController.run_send c6Ctrl [([7, 7], 0)])).map
        (fun mm => (mm.packet_number, mm.path_id)) = [(2, 0), (3, 0)]
  ∧ 1 ∉ (metasOf (MPQUICFECController.run_send c6Ctrl [([7, 7], 0)])).map
        (·.packet_number)
  ∧ 3 ∈ (metasOf (MPQUICFECController.run_send c6Ctrl [([7, 7], 0)])).map
        (·.packet_number) := by
  have hsp : PathScheduler.select_source_path [onePath] = some 0 := by
    norm_num [PathScheduler.select_source_path, sourceScore, onePath]
  have hrp : PathScheduler.select_repair_path [onePath] [] 0 = some 0 := by
    norm_num [PathScheduler.select_repair_path, onePath]
  have henc : FECEncoder.encode 1 1 2 [[7, 7]] = some [[7, 7]] := by decide
  have hmap : (metasOf (MPQUICFECController.run_send c6Ctrl [([7, 7], 0)])).map
      (fun mm => (mm.packet_number, mm.path_id)) = [(2, 0), (3, 0)] := by
    simp only [MPQUICFECController.run_send, MPQUICFECController.send_stream_data,
      MPQUICFECController.get_next_packet_number, c6Ctrl, mkCtrl]
    norm_num [hsp, hrp, henc, metasOf, MPQUICFECController.assign_frames, repairFrames,
      PacketSendHook.wrap_source_frame, List.getD, Function.update]
  have hnum : (metasOf (MPQUICFECController.run_send c6Ctrl [([7, 7], 0)])).map
      (·.packet_number) = [2, 3] := by
    have := congrArg (List.map Prod.fst) hmap
    simpa [← List.map_map] using this
  exact ⟨hmap, by rw [hnum]; decide, by rw [hnum]; decide⟩

/-- C6 amended: across any sequence of `send_stream_data` calls, the packet
    numbers emitted on any one path are strictly increasing (so all
    distinct); they are NOT gap-free starting at 1, because every call
    additionally consumes one number on the origin path for an internal
    placeholder that is never emitted. -/
theorem C6_amended_strictly_increasing (calls : List (List ℕ × ℕ)) (st0 st : CtrlState)
    (ms : List SendPacketMeta)
    (h : MPQUICFECController.run_send st0 calls = some (st, ms)) (q : ℕ) :
    ((ms.filter (fun mm => mm.path_id = q)).map (·.packet_number)).Pairwise (· < ·) := by
  rw [List.pairwise_map]
  have hpw := run_send_pairwise calls st0 st ms h
  have := List.Pairwise.filter (fun mm => decide (mm.path_id = q)) hpw
  refine this.imp_of_mem ?_
  intro a b ha hb hab
  have ha' := (List.mem_filter.mp ha).2
  have hb' := (List.mem_filter.mp hb).2
  simp only [decide_eq_true_eq] at ha' hb'
  exact hab (ha'.trans hb'.symm)

/-- C6 witness: the amended theorem on the concrete `k = 1` run — the
    emitted numbers on path 0 are strictly increasing. -/
theorem C6_amended_witness :
    (((metasOf (MPQUICFECController.run_send c6Ctrl [([7, 7], 0)])).filter
      (fun mm => mm.path_id = 0)).map (·.packet_number)).Pairwise (· < ·) := by
  have hsp : PathScheduler.select_source_path [onePath] = some 0 := by
    norm_num [PathScheduler.select_source_path, sourceScore, onePath]
  have hrp : PathScheduler.select_repair_path [onePath] [] 0 = some 0 := by
    norm_num [PathScheduler.select_repair_path, onePath]
  have henc : FECEncoder.encode 1 1 2 [[7, 7]] = some [[7, 7]] := by decide
  have hs : (MPQUICFECController.run_send c6Ctrl [([7, 7], 0)]).isSome = true := by
    simp only [MPQUICFECController.run_send, MPQUICFECController.send_stream_data,
      MPQUICFECController.get_next_packet_number, c6Ctrl, mkCtrl]
    norm_num [hsp, hrp, henc, MPQUICFECController.assign_frames, repairFrames,
      PacketSendHook.wrap_source_frame, List.getD, Function.update]
  obtain ⟨⟨st, ms⟩, h⟩ := Option.isSome_iff_exists.mp hs
  have hpw := C6_amended_strictly_increasing [([7, 7], 0)] c6Ctrl st ms h 0
  rw [show metasOf (MPQUICFECController.run_send c6Ctrl [([7, 7], 0)]) = ms from by
    rw [h]; rfl]
  exact hpw

/-! ## C7 — scheduler weights -/

theorem update_path_state_ids (st : SchedulerState) (s : PathState) :
    (PathScheduler.update_path_state st s).ids = insert s.path_id st.ids := by
  unfold PathScheduler.update_path_state PathScheduler.update_weights
  dsimp only
  split <;> rfl

theorem c7cost (i : ℕ) : PathScheduler.compute_cost (c7path i) = 6 / 5 := by
  norm_num [PathScheduler.compute_cost, c7path]

theorem c7run_succ (n : ℕ) :
    c7run (n + 1) = PathScheduler.update_path_state (c7run n) (c7path n) := by
  unfold c7run
  rw [List.range_succ, List.foldl_append]
  rfl

/-- On the equal-cost path set `range n`, one `update_weights` maps weight
    `i` to `max 0.001 (wᵢ·f) / Σⱼ max 0.001 (wⱼ·f)` with `f = exp(-0.1/n)`. -/
theorem c7_update_weights (n : ℕ) (hn : 1 ≤ n) (st : SchedulerState)
    (hids : st.ids = Finset.range n) (hpath : st.path = fun i => c7path i) :
    ∀ i ∈ Finset.range n,
      (PathScheduler.update_weights st).weight i
        = max 0.001 (st.weight i * Real.exp (-(0.1) * (1 / (n : ℝ))))
          / ∑ j ∈ Finset.range n,
              max 0.001 (st.weight j * Real.exp (-(0.1) * (1 / (n : ℝ)))) := by
  intro i hi
  have hne : st.ids ≠ ∅ := by
    rw [hids]
    exact (Finset.nonempty_range_iff.mpr (by omega)).ne_empty
  have hnR : (1 : ℝ) ≤ (n : ℝ) := by exact_mod_cast hn
  unfold PathScheduler.update_weights
  rw [if_neg hne]
  dsimp only
  rw [if_pos (hids ▸ hi)]
  have htot : (∑ j ∈ st.ids, PathScheduler.compute_cost (st.path j)) = (n : ℚ) * (6 / 5) := by
    rw [hids, hpath]
    rw [Finset.sum_congr rfl (fun j _ => c7cost j), Finset.sum_const, Finset.card_range,
      nsmul_eq_mul]
  rw [htot]
  have hmax : max (0.001 : ℝ) (((n : ℚ) * (6 / 5) : ℚ) : ℝ) = (n : ℝ) * (6 / 5) := by
    push_cast
    rw [max_eq_right]
    nlinarith
  rw [hmax, hpath]
  have harg : ∀ j : ℕ,
      -(0.1) * (((PathScheduler.compute_cost ((fun i => c7path i) j) : ℚ) : ℝ)
        / ((n : ℝ) * (6 / 5)))
      = -(0.1) * (1 / (n : ℝ)) := by
    intro j
    have hnn : (n : ℝ) ≠ 0 := by positivity
    rw [show PathScheduler.compute_cost ((fun i => c7path i) j)
        = (6 / 5 : ℚ) from c7cost j]
    push_cast
    field_simp
    ring
  rw [hids]
  rw [harg i, Finset.sum_congr rfl (fun j _ => by rw [harg j])]

/-- The no-clamp bound: for `1 ≤ n ≤ 999`,
    `0.001 ≤ exp(-0.1/n) * (1/n)`. -/
theorem c7_noclamp (n : ℕ) (h1 : 1 ≤ n) (h2 : n ≤ 999) :
    (0.001 : ℝ) ≤ Real.exp (-(0.1) * (1 / (n : ℝ))) * (1 / (n : ℝ)) := by
  have hx1 : (1 : ℝ) ≤ (n : ℝ) := by exact_mod_cast h1
  have hx2 : (n : ℝ) ≤ 999 := by exact_mod_cast h2
  have hxpos : (0 : ℝ) < (n : ℝ) := by linarith
  have hexp : 1 - 0.1 * (1 / (n : ℝ)) ≤ Real.exp (-(0.1) * (1 / (n : ℝ))) := by
    have := Real.add_one_le_exp (-(0.1) * (1 / (n : ℝ)))
    linarith
  have hinv : (0 : ℝ) < 1 / (n : ℝ) := by positivity
  have key : (0.001 : ℝ) ≤ (1 - 0.1 * (1 / (n : ℝ))) * (1 / (n : ℝ)) := by
    rw [show (1 - 0.1 * (1 / (n : ℝ))) * (1 / (n : ℝ))
        = ((n : ℝ) - 0.1) / ((n : ℝ) * (n : ℝ)) from by field_simp]
    rw [le_div_iff₀ (by positivity)]
    nlinarith [mul_nonneg (sub_nonneg.mpr hx1) (sub_nonneg.mpr hx2)]
  calc (0.001 : ℝ) ≤ (1 - 0.1 * (1 / (n : ℝ))) * (1 / (n : ℝ)) := key
    _ ≤ Real.exp (-(0.1) * (1 / (n : ℝ))) * (1 / (n : ℝ)) := by
        apply mul_le_mul_of_nonneg_right hexp (le_of_lt hinv)

theorem update_path_state_eq (st : SchedulerState) (s : PathState) (h : s.path_id ∉ st.ids) :
    PathScheduler.update_path_state st s
      = PathScheduler.update_weights
          { ids := insert s.path_id st.ids,
            path := Function.update st.path s.path_id s,
            weight := Function.update st.weight s.path_id
              (1 / max 1 ((insert s.path_id st.ids).card : ℝ)) } := by
  unfold PathScheduler.update_path_state
  dsimp only
  rw [if_neg h]

theorem c7_sum_coeff (n : ℕ) :
    (∑ j ∈ Finset.range (n + 1), (if j = 0 then (2 : ℝ) else 1)) = (n : ℝ) + 2 := by
  have hsplit : ∀ j : ℕ, (if j = 0 then (2 : ℝ) else 1) = 1 + (if j = 0 then (1 : ℝ) else 0) := by
    intro j; split <;> norm_num
  rw [Finset.sum_congr rfl (fun j _ => hsplit j), Finset.sum_add_distrib, Finset.sum_const,
    Finset.card_range, nsmul_eq_mul, mul_one,
    Finset.sum_ite_eq' (Finset.range (n + 1)) 0 (fun _ => (1 : ℝ)),
    if_pos (Finset.mem_range.mpr (Nat.succ_pos n))]
  push_cast
  ring

theorem update_weights_ids (st : SchedulerState) :
    (PathScheduler.update_weights st).ids = st.ids := by
  unfold PathScheduler.update_weights
  split <;> rfl

theorem update_weights_path (st : SchedulerState) :
    (PathScheduler.update_weights st).path = st.path := by
  unfold PathScheduler.update_weights
  split <;> rfl

/-- `update_weights` on the uniform-cost state with `n+1` paths and
    weights `(2 or 1)/(n+1)` (sum `(n+2)/(n+1) > 1`): no clamp fires and
    normalization yields `(2 or 1)/(n+2)`. -/
theorem c7_uniform_update (n : ℕ) (h2 : n + 1 ≤ 999) (st2 : SchedulerState)
    (hids2 : st2.ids = Finset.range (n + 1))
    (hpath2 : st2.path = (fun i => c7path i))
    (hw2 : ∀ i, i < n + 1 → st2.weight i = (if i = 0 then 2 else 1) / ((n : ℝ) + 1)) :
    ∀ i, i < n + 1 → (PathScheduler.update_weights st2).weight i
      = (if i = 0 then 2 else 1) / ((n : ℝ) + 2) := by
  intro i hi
  have hupd := c7_update_weights (n + 1) (by omega) st2 hids2 hpath2 i
    (Finset.mem_range.mpr hi)
  rw [hupd, hw2 i hi,
    Finset.sum_congr rfl (fun j hj => by rw [hw2 j (Finset.mem_range.mp hj)])]
  have hcast : ((n + 1 : ℕ) : ℝ) = (n : ℝ) + 1 := by push_cast; ring
  rw [hcast]
  have h0 := c7_noclamp (n + 1) (by omega) (by omega)
  rw [hcast] at h0
  have hcol : ∀ j : ℕ, max (0.001 : ℝ)
      ((if j = 0 then (2 : ℝ) else 1) / ((n : ℝ) + 1)
        * Real.exp (-(0.1) * (1 / ((n : ℝ) + 1))))
      = (if j = 0 then (2 : ℝ) else 1) / ((n : ℝ) + 1)
        * Real.exp (-(0.1) * (1 / ((n : ℝ) + 1))) := by
    intro j
    rw [max_eq_right]
    have ha : (1 : ℝ) ≤ (if j = 0 then (2 : ℝ) else 1) := by split <;> norm_num
    have hfpos : (0 : ℝ) < Real.exp (-(0.1) * (1 / ((n : ℝ) + 1))) := Real.exp_pos _
    have hn1 : (0 : ℝ) < (n : ℝ) + 1 := by positivity
    calc (0.001 : ℝ) ≤ Real.exp (-(0.1) * (1 / ((n : ℝ) + 1))) * (1 / ((n : ℝ) + 1)) := h0
      _ = 1 / ((n : ℝ) + 1) * Real.exp (-(0.1) * (1 / ((n : ℝ) + 1))) := mul_comm _ _
      _ ≤ (if j = 0 then (2 : ℝ) else 1) / ((n : ℝ) + 1)
            * Real.exp (-(0.1) * (1 / ((n : ℝ) + 1))) :=
          mul_le_mul_of_nonneg_right ((div_le_div_iff_of_pos_right hn1).mpr ha) hfpos.le
  rw [hcol i, Finset.sum_congr rfl (fun j _ => hcol j), ← Finset.sum_mul, ← Finset.sum_div,
    c7_sum_coeff n]
  have hf := Real.exp_ne_zero (-(0.1) * (1 / ((n : ℝ) + 1)))
  have hn1 : ((n : ℝ) + 1) ≠ 0 := by positivity
  have hn2 : ((n : ℝ) + 2) ≠ 0 := by positivity
  field_simp
  ring

/-- One `update_path_state` step from the uniform `n`-path state: path `n`
    is inserted at weight `1/(n+1)` and the update leaves weights
    `(2 or 1)/(n+2)`. -/
theorem c7step (n : ℕ) (h1 : 1 ≤ n) (h2 : n + 1 ≤ 999) (st : SchedulerState)
    (hids : st.ids = Finset.range n) (hpath : st.path = (fun i => c7path i))
    (hw : ∀ i, i < n → st.weight i = (if i = 0 then 2 else 1) / ((n : ℝ) + 1)) :
    (PathScheduler.update_path_state st (c7path n)).ids = Finset.range (n + 1)
  ∧ (PathScheduler.update_path_state st (c7path n)).path = (fun i => c7path i)
  ∧ ∀ i, i < n + 1 → (PathScheduler.update_path_state st (c7path n)).weight i
      = (if i = 0 then 2 else 1) / ((n : ℝ) + 2) := by
  have hpid : (c7path n).path_id = n := rfl
  have hnot : (c7path n).path_id ∉ st.ids := by
    rw [hpid, hids]; exact Finset.not_mem_range_self
  rw [update_path_state_eq st (c7path n) hnot]
  have hidsc : insert (c7path n).path_id st.ids = Finset.range (n + 1) := by
    rw [hpid, hids, ← Finset.range_succ]
  have hpathc : Function.update st.path (c7path n).path_id (c7path n)
      = (fun i => c7path i) := by
    rw [hpid, hpath]
    exact Function.update_eq_self n (fun i => c7path i)
  have hwc : ∀ i, i < n + 1 →
      Function.update st.weight (c7path n).path_id
          (1 / max 1 ((insert (c7path n).path_id st.ids).card : ℝ)) i
        = (if i = 0 then 2 else 1) / ((n : ℝ) + 1) := by
    intro i hi
    rw [hpid]
    rcases eq_or_ne i n with rfl | hne
    · rw [Function.update_same, if_neg (show ¬ (i = 0) by omega)]
      have hidsc2 : insert i st.ids = Finset.range (i + 1) := by
        rw [hids, ← Finset.range_succ]
      rw [hidsc2, Finset.card_range]
      push_cast
      rw [max_eq_right (by linarith [Nat.cast_nonneg (α := ℝ) i])]
    · rw [Function.update_noteq hne]
      exact hw i (by omega)
  exact ⟨by rw [update_weights_ids]; exact hidsc,
    by rw [update_weights_path]; exact hpathc,
    c7_uniform_update n h2 _ hidsc hpathc hwc⟩

/-- Invariant of the run adding paths `0..n-1` (equal costs): weights are
    `2/(n+1)` for path 0 and `1/(n+1)` for the others. -/
theorem c7run_inv (n : ℕ) (h1 : 1 ≤ n) (h2 : n ≤ 999) :
    (c7run n).ids = Finset.range n
  ∧ (c7run n).path = (fun i => c7path i)
  ∧ ∀ i, i < n → (c7run n).weight i = (if i = 0 then 2 else 1) / ((n : ℝ) + 1) := by
  induction n with
  | zero => omega
  | succ n ih =>
    rcases Nat.eq_zero_or_pos n with rfl | hpos
    · rw [c7run_succ 0, show c7run 0 = c7init from rfl]
      have hnot : (c7path 0).path_id ∉ c7init.ids := by simp [c7init, c7path]
      rw [update_path_state_eq _ _ hnot]
      have hidsc : insert (c7path 0).path_id c7init.ids = Finset.range 1 := by
        show insert 0 (∅ : Finset ℕ) = _
        rw [Finset.range_one, insert_emptyc_eq]
      have hpathc : Function.update c7init.path (c7path 0).path_id (c7path 0)
          = (fun i => c7path i) := by
        show Function.update (fun i => c7path i) 0 (c7path 0) = _
        exact Function.update_eq_self 0 (fun i => c7path i)
      refine ⟨by rw [update_weights_ids]; exact hidsc,
        by rw [update_weights_path]; exact hpathc, ?_⟩
      intro i hi
      interval_cases i
      have hupd := c7_update_weights 1 le_rfl
        (SchedulerState.mk (insert (c7path 0).path_id c7init.ids)
          (Function.update c7init.path (c7path 0).path_id (c7path 0))
          (Function.update c7init.weight (c7path 0).path_id
            (1 / max 1 ((insert (c7path 0).path_id c7init.ids).card : ℝ))))
        hidsc hpathc 0 (Finset.mem_range.mpr Nat.one_pos)
      dsimp only at hupd
      rw [hupd]
      have hw0 : Function.update c7init.weight (c7path 0).path_id
          (1 / max 1 ((insert (c7path 0).path_id c7init.ids).card : ℝ)) 0 = 1 := by
        show Function.update (fun _ => (0 : ℝ)) 0 _ 0 = 1
        rw [Function.update_same, hidsc, Finset.card_range]
        norm_num
      rw [Finset.sum_range_one, hw0]
      have hf : (0.001 : ℝ) ≤ 1 * Real.exp (-(0.1) * (1 / ((1 : ℕ) : ℝ))) := by
        have := Real.add_one_le_exp (-(0.1) * (1 / ((1 : ℕ) : ℝ)))
        push_cast at this ⊢
        nlinarith
      rw [max_eq_right hf, div_self (by positivity)]
      norm_num
    · obtain ⟨hids, hpath, hw⟩ := ih hpos (by omega)
      rw [c7run_succ n]
      obtain ⟨ha, hb, hc⟩ := c7step n hpos (by omega) (c7run n) hids hpath hw
      refine ⟨ha, hb, ?_⟩
      intro i hi
      rw [hc i hi]
      push_cast
      ring_nf

/-- C7 counterexample: a run of 1000 `update_path_state` calls with
    identical path states.  After the 999-path stage the non-first paths
    sit at weight exactly `1/1000`; inserting path 999 clamps them to the
    floor BEFORE renormalizing by a sum that now exceeds 1, leaving path
    1's weight strictly below `1e-3` — the floor invariant fails. -/
theorem C7_counterexample_weight_below_floor :
    1 ∈ (c7run 1000).ids ∧ (c7run 1000).weight 1 < 0.001 := by
  obtain ⟨hids, hpath, hw⟩ := c7run_inv 999 (by norm_num) le_rfl
  rw [c7run_succ 999]
  have hpid : (c7path 999).path_id = 999 := rfl
  have hnot : (c7path 999).path_id ∉ (c7run 999).ids := by
    rw [hpid, hids]; exact Finset.not_mem_range_self
  constructor
  · rw [update_path_state_ids, hpid, hids]
    exact Finset.mem_insert_of_mem (Finset.mem_range.mpr (by norm_num))
  · rw [update_path_state_eq _ _ hnot]
    have hidsc : insert (c7path 999).path_id (c7run 999).ids = Finset.range 1000 := by
      rw [hpid, hids, ← Finset.range_succ]
    have hpathc : Function.update (c7run 999).path (c7path 999).path_id (c7path 999)
        = (fun i => c7path i) := by
      rw [hpid, hpath]
      exact Function.update_eq_self 999 (fun i => c7path i)
    have hwc : ∀ j, j < 1000 →
        Function.update (c7run 999).weight (c7path 999).path_id
          (1 / max 1 ((insert (c7path 999).path_id (c7run 999).ids).card : ℝ)) j
        = (if j = 0 then 2 else 1) / 1000 := by
      intro j hj
      rw [hpid]
      rcases eq_or_ne j 999 with rfl | hne
      · rw [Function.update_same, if_neg (by omega)]
        have hidsc2 : insert (999 : ℕ) (c7run 999).ids = Finset.range 1000 := by
          rw [hids, ← Finset.range_succ]
        rw [hidsc2, Finset.card_range]
        norm_num
      · rw [Function.update_noteq hne, hw j (by omega),
          show ((999 : ℕ) : ℝ) + 1 = (1000 : ℝ) by norm_num]
    have hupd := c7_update_weights 1000 (by norm_num)
      (SchedulerState.mk (insert (c7path 999).path_id (c7run 999).ids)
        (Function.update (c7run 999).path (c7path 999).path_id (c7path 999))
        (Function.update (c7run 999).weight (c7path 999).path_id
          (1 / max 1 ((insert (c7path 999).path_id (c7run 999).ids).card : ℝ))))
      hidsc hpathc 1 (Finset.mem_range.mpr (by norm_num))
    dsimp only at hupd
    rw [hupd, hwc 1 (by norm_num),
      Finset.sum_congr rfl (fun j hj => by rw [hwc j (Finset.mem_range.mp hj)])]
    have hcast : ((1000 : ℕ) : ℝ) = 1000 := by push_cast; ring_nf
    rw [hcast]
    have hf1 : Real.exp (-(0.1) * (1 / (1000 : ℝ))) ≤ 1 :=
      Real.exp_le_one_iff.mpr (by norm_num)
    have hflow : (0.9999 : ℝ) ≤ Real.exp (-(0.1) * (1 / (1000 : ℝ))) := by
      have := Real.add_one_le_exp (-(0.1) * (1 / (1000 : ℝ)))
      nlinarith
    have hfpos : (0 : ℝ) < Real.exp (-(0.1) * (1 / (1000 : ℝ))) := Real.exp_pos _
    have hnum : max (0.001 : ℝ)
        ((if (1 : ℕ) = 0 then (2 : ℝ) else 1) / 1000 * Real.exp (-(0.1) * (1 / (1000 : ℝ))))
        = 0.001 := by
      rw [if_neg (by norm_num)]
      rw [max_eq_left]
      nlinarith
    have hterm0 : max (0.001 : ℝ)
        ((if (0 : ℕ) = 0 then (2 : ℝ) else 1) / 1000 * Real.exp (-(0.1) * (1 / (1000 : ℝ))))
        = 2 / 1000 * Real.exp (-(0.1) * (1 / (1000 : ℝ))) := by
      rw [if_pos rfl, max_eq_right]
      nlinarith
    have hterms : ∀ j ∈ (Finset.range 1000).erase 0,
        max (0.001 : ℝ)
          ((if j = 0 then (2 : ℝ) else 1) / 1000 * Real.exp (-(0.1) * (1 / (1000 : ℝ))))
        = 0.001 := by
      intro j hj
      rw [if_neg (Finset.mem_erase.mp hj).1]
      rw [max_eq_left]
      nlinarith
    have hsum : (∑ j ∈ Finset.range 1000, max (0.001 : ℝ)
          ((if j = 0 then (2 : ℝ) else 1) / 1000 * Real.exp (-(0.1) * (1 / (1000 : ℝ)))))
        = 2 / 1000 * Real.exp (-(0.1) * (1 / (1000 : ℝ))) + 999 * 0.001 := by
      rw [← Finset.sum_erase_add (Finset.range 1000) _
        (Finset.mem_range.mpr (by norm_num : (0 : ℕ) < 1000))]
      rw [Finset.sum_congr rfl hterms, Finset.sum_const,
        Finset.card_erase_of_mem (Finset.mem_range.mpr (by norm_num)), Finset.card_range,
        hterm0, nsmul_eq_mul]
      push_cast
      ring_nf
    rw [hnum, hsum]
    have hSpos : (0 : ℝ) < 2 / 1000 * Real.exp (-(0.1) * (1 / (1000 : ℝ))) + 999 * 0.001 := by
      nlinarith
    rw [div_lt_iff₀ hSpos]
    nlinarith

theorem compute_cost_nonneg (s : PathState) : (0 : ℚ) ≤ PathScheduler.compute_cost s :=
  le_trans (by norm_num) (le_max_left _ _)

/-- C7 amended: after `update_weights` the weights over the tracked paths
    sum to exactly 1; the per-weight floor `≥ 1e-3` holds PROVIDED the
    pre-update weights summed to at most 1 and were each `≥ 1e-3` — the
    clamp is applied before the renormalization, so when the pre-update
    sum exceeds 1 (right after a new path is inserted) a weight can end
    up slightly below `1e-3`. -/
theorem C7_amended_weights_distribution (st : SchedulerState) (hne : st.ids.Nonempty)
    (hsum : ∑ i ∈ st.ids, st.weight i ≤ 1)
    (hfloor : ∀ i ∈ st.ids, (0.001 : ℝ) ≤ st.weight i) :
    (∑ i ∈ st.ids, (PathScheduler.update_weights st).weight i = 1)
  ∧ ∀ i ∈ st.ids, (0.001 : ℝ) ≤ (PathScheduler.update_weights st).weight i := by
  unfold PathScheduler.update_weights
  rw [if_neg hne.ne_empty]
  dsimp only
  have hFle1 : ∀ i, Real.exp (-(0.1) * (((PathScheduler.compute_cost (st.path i) : ℚ) : ℝ)
      / max 0.001 (((∑ j ∈ st.ids, PathScheduler.compute_cost (st.path j) : ℚ) : ℝ)))) ≤ 1 := by
    intro i
    apply Real.exp_le_one_iff.mpr
    have hc : (0 : ℝ) ≤ ((PathScheduler.compute_cost (st.path i) : ℚ) : ℝ) := by
      exact_mod_cast compute_cost_nonneg (st.path i)
    have hd : (0 : ℝ) < max 0.001 (((∑ j ∈ st.ids,
        PathScheduler.compute_cost (st.path j) : ℚ) : ℝ)) :=
      lt_of_lt_of_le (by norm_num) (le_max_left _ _)
    have : (0 : ℝ) ≤ ((PathScheduler.compute_cost (st.path i) : ℚ) : ℝ)
        / max 0.001 (((∑ j ∈ st.ids, PathScheduler.compute_cost (st.path j) : ℚ) : ℝ)) :=
      div_nonneg hc hd.le
    nlinarith
  have hwnn : ∀ i ∈ st.ids, (0 : ℝ) ≤ st.weight i := fun i hi =>
    le_trans (by norm_num) (hfloor i hi)
  have hub : ∀ i ∈ st.ids,
      max 0.001 (st.weight i * Real.exp (-(0.1) *
        (((PathScheduler.compute_cost (st.path i) : ℚ) : ℝ)
          / max 0.001 (((∑ j ∈ st.ids, PathScheduler.compute_cost (st.path j) : ℚ) : ℝ)))))
        ≤ st.weight i := by
    intro i hi
    refine max_le (hfloor i hi) ?_
    exact mul_le_of_le_one_right (hwnn i hi) (hFle1 i)
  have hlb : ∀ i, (0.001 : ℝ) ≤ max 0.001 (st.weight i * Real.exp (-(0.1) *
      (((PathScheduler.compute_cost (st.path i) : ℚ) : ℝ)
        / max 0.001 (((∑ j ∈ st.ids, PathScheduler.compute_cost (st.path j) : ℚ) : ℝ))))) :=
    fun i => le_max_left _ _
  have hSpos : (0 : ℝ) < ∑ i ∈ st.ids, max 0.001 (st.weight i * Real.exp (-(0.1) *
      (((PathScheduler.compute_cost (st.path i) : ℚ) : ℝ)
        / max 0.001 (((∑ j ∈ st.ids, PathScheduler.compute_cost (st.path j) : ℚ) : ℝ))))) :=
    Finset.sum_pos (fun i _ => lt_of_lt_of_le (by norm_num) (hlb i)) hne
  have hSle1 : (∑ i ∈ st.ids, max 0.001 (st.weight i * Real.exp (-(0.1) *
      (((PathScheduler.compute_cost (st.path i) : ℚ) : ℝ)
        / max 0.001 (((∑ j ∈ st.ids, PathScheduler.compute_cost (st.path j) : ℚ) : ℝ))))))
      ≤ 1 :=
    le_trans (Finset.sum_le_sum hub) hsum
  constructor
  · rw [Finset.sum_congr rfl (fun i hi => if_pos hi), ← Finset.sum_div]
    exact div_self hSpos.ne'
  · intro i hi
    rw [if_pos hi]
    calc (0.001 : ℝ)
        ≤ 0.001 / (∑ i ∈ st.ids, max 0.001 (st.weight i * Real.exp (-(0.1) *
            (((PathScheduler.compute_cost (st.path i) : ℚ) : ℝ)
              / max 0.001 (((∑ j ∈ st.ids,
                  PathScheduler.compute_cost (st.path j) : ℚ) : ℝ)))))) := by
          rw [le_div_iff₀ hSpos]
          nlinarith
      _ ≤ _ := (div_le_div_iff_of_pos_right hSpos).mpr (hlb i)

/-- C7 witness: the amended theorem at the one-path distribution state
    (`ids = {0}`, weight 1). -/
theorem C7_amended_witness :
    (∑ i ∈ ({0} : Finset ℕ),
        (PathScheduler.update_weights ⟨{0}, fun i => c7path i, fun _ => 1⟩).weight i = 1)
  ∧ (0.001 : ℝ)
      ≤ (PathScheduler.update_weights ⟨{0}, fun i => c7path i, fun _ => 1⟩).weight 0 :=
  ⟨(C7_amended_weights_distribution ⟨{0}, fun i => c7path i, fun _ => 1⟩
      (Finset.singleton_nonempty 0) (by simp) (fun i _ => by norm_num)).1,
   (C7_amended_weights_distribution ⟨{0}, fun i => c7path i, fun _ => 1⟩
      (Finset.singleton_nonempty 0) (by simp) (fun i _ => by norm_num)).2 0
      (Finset.mem_singleton_self 0)⟩

end Spec2Proof
